import Mathlib

/-!
Verification development for the marmalade Emacs Lisp package server.

This file shallowly embeds the claim-relevant parts of the source:

* `src/lib/sexpParser.js` — the recursive-descent s-expression parser
  (`Parser.prototype.exp`, `_sexp`, `_symbol`, `_number`, `_string`, `_ws`);
* `src/sexp.js` — the s-expression serializer (`sexp`, `string`, `list`,
  `bool`, `number`);
* `src/lib/packageParser.js` — metadata extraction (`getHeaders`,
  `getSection`, `stripRCS`, `parseVersion`, `parseRequires`, `parseSexp`,
  `parseElisp`, `parseDeclaration`);
* `src/lib/helpers.js` — `scan` (forward iteration over regex matches);
* `src/lib/backend.js` (second revision in the file, the one the claims
  cite) — `savePackage_`, `saveNewPackage_`, `saveElisp`, `savePackage`,
  `loadPackage`, `handleLoadError`, `loadUserWithToken`, together with the
  unique index on `(_name, _version)` installed by the `Backend`
  constructor.

Modelling conventions:

* JS strings are Lean `String` / `List Char`; the regular expressions of
  the source are re-implemented as character-level functions with the
  exact greedy/backtracking behaviour of the JS engine on these patterns.
* JS numbers reachable in this code are exact decimals (digit strings on
  both sides of the point); they are modelled by `JSNum` with a canonical
  fraction part (no trailing zeros), mirroring `Number.prototype.toString`
  and the numeric conversions `+tok` and `Number(s)`.  `NaN` has its own
  constructor.
* The MongoDB record store and the GridFS blob store are external
  collaborators; they are modelled at their interface: collections are
  lists of documents, `findOne` returns the first match, `insert` with a
  unique index fails with the storage layer's duplicate-key error, `find`
  with a sort and `limit: 1` returns the least document under the sort
  order (ascending on the named field), and blobs are a filename-keyed
  association list.
* Callback chains (the `step` library) are sequential here, so they are
  modelled by explicit state passing: each operation returns its
  result/error together with the store state after the steps that actually
  ran.
-/

namespace Marmalade

/-! ## Characters and small string utilities -/

/-- Double-quote character. -/
def chDQ : Char := Char.ofNat 34

/-- Backslash character. -/
def chBS : Char := Char.ofNat 92

/-- Single-quote character. -/
def chSQ : Char := Char.ofNat 39

/-- Backtick character. -/
def chBT : Char := Char.ofNat 96

/-- Newline character. -/
def chNL : Char := Char.ofNat 10

/-- ASCII decimal digit, as matched by `[0-9]` in the source's regexes. -/
def isDigitCh (c : Char) : Bool := (48 ≤ c.toNat) && (c.toNat ≤ 57)

/-- JS `\s`: space, tab, newline, carriage return, form feed, vertical tab. -/
def isWsCh (c : Char) : Bool :=
  c = ' ' || c = '\t' || c = chNL || c = Char.ofNat 13 || c = Char.ofNat 12 ||
  c = Char.ofNat 11

/-- Numeric value of a digit string (the digits of a JS decimal literal). -/
def natOfDigits (ds : List Char) : Nat :=
  ds.foldl (fun n c => n * 10 + (c.toNat - 48)) 0

/-! ## JS numbers

All numbers this code produces come from `+tok` on a `digits? '.' digits+`
token or from `Number(s)`; both land on exact decimal values whose
`toString` is the canonical decimal (no trailing fraction zeros, integer
values without a point).  `nan` models JS `NaN` (reachable only through
`Number` on strings that pass the version regex with embedded newlines). -/

inductive JSNum : Type
  /-- The decimal value `i.frac`, with `frac` a canonical digit string
  (possibly empty, never with a trailing zero). -/
  | dec (i : Nat) (frac : List Char)
  /-- JS `NaN`. -/
  | nan
deriving DecidableEq, Repr

/-- `Number.prototype.toString` on the values of `JSNum`. -/
def JSNum.toStr : JSNum → String
  | .dec i [] => toString i
  | .dec i f => toString i ++ "." ++ String.mk f
  | .nan => "NaN"

/-- Drop the trailing zeros of a fraction digit string: JS collapses
`+"1.50"` to the float `1.5`, whose rendering is `"1.5"`. -/
def canonFrac (f : List Char) : List Char :=
  (f.reverse.dropWhile (· = '0')).reverse

/-- The JS number denoted by an integer part and a fraction part, as
produced by the unary `+` conversion on a matched numeric token. -/
def jsNumOfParts (ip f : List Char) : JSNum :=
  JSNum.dec (natOfDigits ip) (canonFrac f)

/-- JS `Number(s)` on the strings that can reach it in `parseVersion`:
leading/trailing whitespace is trimmed, an all-digit remainder is its
numeric value, an empty remainder is `0`, anything else is `NaN`. -/
def jsNumberOfString (s : List Char) : JSNum :=
  let t := (s.dropWhile isWsCh).reverse.dropWhile isWsCh |>.reverse
  if t = [] then JSNum.dec 0 []
  else if t.all isDigitCh then JSNum.dec (natOfDigits t) []
  else JSNum.nan

/-! ## Parsed s-expression values

`src/lib/sexpParser.js` produces JS values: lists become arrays, symbols
and strings both become string primitives, numbers become numbers.  The
assignment `sym.lispType = 'symbol'` in `_symbol` targets a string
primitive, so it is silently discarded (non-strict mode); the parse result
therefore carries no symbol/string distinction, which `JVal` reflects. -/

inductive JVal : Type
  | str (s : String)
  | num (n : JSNum)
  | list (l : List JVal)

/-- JS truthiness of a parse result: the empty string, `0` and `NaN` are
falsy; arrays are always truthy (even `[]`). -/
def truthyJ (v : JVal) : Bool :=
  match v with
  | JVal.str s => s ≠ ""
  | JVal.num (JSNum.dec i f) => !(i = 0 && f = [])
  | JVal.num JSNum.nan => false
  | JVal.list _ => true

/-- Result of `exp` or of one stage of its `||` chain: `ok` carries a
truthy parsed value with the remaining input; `stop` the JS-falsy result
the chain or the element loop sees — `none` for a `null` return (the
token was not present there) and `some v` for a parsed but falsy value
such as `""` or `0`, whose token the cursor has moved past; `synErr` a
thrown `SyntaxError`. -/
inductive PRes : Type
  | ok (v : JVal) (rest : List Char)
  | stop (v : Option JVal) (rest : List Char)
  | synErr (msg : String)

/-! ## The s-expression parser (`src/lib/sexpParser.js`) -/

/-- Characters excluded from symbol continuation position:
`[^#"'()\[\]\\`\s]` — the pound sign, quotes, parens, brackets, backslash,
backtick and whitespace. -/
def symCont (c : Char) : Bool :=
  !(c = '#' || c = chDQ || c = chSQ || c = '(' || c = ')' || c = '[' ||
    c = ']' || c = chBS || c = chBT || isWsCh c)

/-- Characters allowed in symbol start position:
`[^0-9.#"'()\[\]\\`\s]` — continuation characters minus digits and dot. -/
def symStart (c : Char) : Bool :=
  symCont c && !(isDigitCh c) && c ≠ '.'

/-- The raw extent of a symbol token after its first atom: each step is
either a plain continuation character or a backslash escape `\\.` (the
regex dot does not match a newline). -/
def symTail : List Char → (List Char × List Char)
  | [] => ([], [])
  | c :: c2 :: r =>
      if c = chBS && c2 ≠ chNL then
        let (a, b) := symTail r
        (c :: c2 :: a, b)
      else if symCont c then
        let (a, b) := symTail (c2 :: r)
        (c :: a, b)
      else ([], c :: c2 :: r)
  | [c] =>
      if symCont c && c ≠ chBS then ([c], []) else ([], [c])

/-- `String.prototype.replace(/\\(.)/g, '$1')`: drop each escaping
backslash; a backslash before a newline (or at the end) is not an escape
and stays. -/
def unescape : List Char → List Char
  | [] => []
  | c :: c2 :: r =>
      if c = chBS && c2 ≠ chNL then c2 :: unescape r
      else c :: unescape (c2 :: r)
  | [c] => [c]

/-- `Parser.prototype._symbol`: token
`([^0-9.#"'()\[\]\\`\s]|\\.)([^#"'()\[\]\\`\s]|\\.)*`, unescaped.  The
`sym.lispType = 'symbol'` assignment on the resulting string primitive is
a silent no-op and has no counterpart here. -/
def tokSymbol : List Char → Option (String × List Char)
  | [] => none
  | c :: c2 :: r =>
      if c = chBS && c2 ≠ chNL then
        let (a, b) := symTail r
        some (String.mk (unescape (c :: c2 :: a)), b)
      else if symStart c then
        let (a, b) := symTail (c2 :: r)
        some (String.mk (unescape (c :: a)), b)
      else none
  | [c] =>
      if symStart c then some (String.mk [c], []) else none

/-- `Parser.prototype._number`: token `[0-9]*(\.[0-9]+)`, converted by
unary `+`. -/
def tokNumber (s : List Char) : Option (JSNum × List Char) :=
  let ip := s.takeWhile isDigitCh
  match s.drop ip.length with
  | '.' :: r =>
      let f := r.takeWhile isDigitCh
      if f = [] then none
      else some (jsNumOfParts ip f, r.drop f.length)
  | _ => none

/-- First pass of `_string`'s unescaping:
`replace(/\\[ \n]/g, "")` — a backslash directly before a space or newline
is removed together with it (Elisp line continuation). -/
def stripLineCont : List Char → List Char
  | [] => []
  | c :: c2 :: r =>
      if c = chBS && (c2 = ' ' || c2 = chNL) then stripLineCont r
      else c :: stripLineCont (c2 :: r)
  | [c] => [c]

/-- `Parser.prototype._string`: token `"((?:[^"]|\\.)*)"`.  Because the
`[^"]` alternative also matches a backslash, the match always ends at the
first double quote after the opener (a backtracking consequence of the JS
regex); the content then goes through the two `replace` passes. -/
def tokString : List Char → Option (String × List Char)
  | [] => none
  | c :: r =>
      if c = chDQ then
        let content := r.takeWhile (· ≠ chDQ)
        match r.drop content.length with
        | _ :: rest => some (String.mk (unescape (stripLineCont content)), rest)
        | [] => none
      else none

/-- Length of `dropWhile` never exceeds the input length. -/
theorem dropWhile_len_le {α : Type} (p : α → Bool) (l : List α) :
    (l.dropWhile p).length ≤ l.length := by
  induction l with
  | nil => simp [List.dropWhile]
  | cons a r ih =>
      rw [List.dropWhile_cons]
      split
      · exact Nat.le_succ_of_le ih
      · exact Nat.le_refl _

/-- Single-pass scanner behind `Parser.prototype._ws`.  The flag records
whether the scan is inside a `;[^\n]*` comment; the comment alternative
stops before the newline, which the `\s+` alternative then consumes, so
consuming comment characters one at a time (newline included, since it is
whitespace) gives the same result as dropping the comment in one step and
keeps the recursion structural. -/
def wsConsA : Bool → List Char → List Char
  | _, [] => []
  | true, c :: r => if c = chNL then wsConsA false r else wsConsA true r
  | false, c :: r =>
      if isWsCh c then wsConsA false r
      else if c = ';' then wsConsA true r
      else c :: r

/-- `Parser.prototype._ws`: consume `\s+` runs and `;[^\n]*` comments. -/
def wsCons (s : List Char) : List Char := wsConsA false s

/-- Last stage of `exp`'s `||` chain: `this._string()`.  A production
that does not match returns `null` and leaves the cursor where it was; a
production that matches advances the cursor even when its value is falsy
(`""` here), and `||` then yields that falsy value as the chain's
result. -/
def tokStringP (s : List Char) : PRes :=
  match tokString s with
  | some (v, rest) =>
      if truthyJ (JVal.str v) then PRes.ok (JVal.str v) rest
      else PRes.stop (some (JVal.str v)) rest
  | none => PRes.stop none s

/-- Stage `this._number() || this._string()` of the chain: a matched
token with the falsy value `0` (such as `0.0` or `.0`) advances the
cursor and the chain moves on to `_string` there. -/
def tokNumberP (s : List Char) : PRes :=
  match tokNumber s with
  | some (n, rest) =>
      if truthyJ (JVal.num n) then PRes.ok (JVal.num n) rest
      else tokStringP rest
  | none => tokStringP s

/-- The atom part of `Parser.prototype.exp`: the chain
`this._symbol() || this._number() || this._string()` (tried in source
order once `_sexp` has not matched), each stage gated on the JS
truthiness of its value. -/
def tokDispatch (s : List Char) : PRes :=
  match tokSymbol s with
  | some (v, rest) =>
      if truthyJ (JVal.str v) then PRes.ok (JVal.str v) rest
      else tokNumberP rest
  | none => tokNumberP s

/-- One fuel level of the mutually recursive pair
`Parser.prototype.exp` / the element loop of `Parser.prototype._sexp`,
packaged as a pair of functions so that the recursion is plainly
structural on the fuel (first component: `exp`, second: the loop). -/
def stepP : Nat → ((List Char → PRes) × (List JVal → List Char → PRes))
  | 0 => (fun _ => PRes.synErr "out of fuel",
          fun _ _ => PRes.synErr "out of fuel")
  | fuel + 1 =>
      let prev := stepP fuel
      (fun s =>
        if s.head? = some '(' then prev.2 [] (wsCons s.tail)
        else tokDispatch s,
       fun acc s =>
        match prev.1 s with
        | PRes.ok v rest => prev.2 (acc ++ [v]) (wsCons rest)
        | PRes.synErr m => PRes.synErr m
        | PRes.stop _ rest =>
            if rest.head? = some ')' then PRes.ok (JVal.list acc) rest.tail
            else PRes.synErr "Lisp parser error: expected /\\)/")

/-- `Parser.prototype.exp`:
`this._sexp() || this._symbol() || this._number() || this._string()`;
`_sexp` first consumes `(` or fails without moving.  The fuel only bounds
the mutual recursion; `parse` supplies enough for any input (each
recursive call sits behind at least one consumed character). -/
def expF (fuel : Nat) (s : List Char) : PRes := (stepP fuel).1 s

/-- The element loop of `Parser.prototype._sexp`:
`while ((exp = this.exp())) { val.push(exp); this._ws(); }` — push and
skip whitespace after each truthy expression, stop on a falsy one, then
`_assert(/\)/)` directly at the cursor the falsy result left (no `_ws`
runs on that path). -/
def elemsF (fuel : Nat) (acc : List JVal) (s : List Char) : PRes :=
  (stepP fuel).2 acc s

theorem expF_zero (s : List Char) : expF 0 s = PRes.synErr "out of fuel" :=
  rfl

theorem expF_succ (fuel : Nat) (s : List Char) :
    expF (fuel + 1) s =
      if s.head? = some '(' then elemsF fuel [] (wsCons s.tail)
      else tokDispatch s := rfl

theorem elemsF_zero (acc : List JVal) (s : List Char) :
    elemsF 0 acc s = PRes.synErr "out of fuel" := rfl

theorem elemsF_succ (fuel : Nat) (acc : List JVal) (s : List Char) :
    elemsF (fuel + 1) acc s =
      match expF fuel s with
      | PRes.ok v rest => elemsF fuel (acc ++ [v]) (wsCons rest)
      | PRes.synErr m => PRes.synErr m
      | PRes.stop _ rest =>
          if rest.head? = some ')' then PRes.ok (JVal.list acc) rest.tail
          else PRes.synErr "Lisp parser error: expected /\\)/" := rfl

/-- `sexpParser.parse`: run `exp` on the whole string.  The fuel
`s.length + 1` is always sufficient because every recursive call consumes
at least one input character first. -/
def parse (s : String) : PRes := expF (s.length + 1) s.data

/-! ## The s-expression serializer (`src/sexp.js`)

`exports.sexp` duck-types its argument; the claims quantify over values
built only from nested arrays, strings, numbers and booleans, which `SVal`
captures (no `lispType` annotations, no `toSexp` objects, no null). -/

inductive SVal : Type
  | str (s : String)
  | num (n : JSNum)
  | bool (b : Bool)
  | list (l : List SVal)

/-- `exports.string`'s escaping: `str.replace(/["\\]/g, '\\$&')`. -/
def escStr : List Char → List Char
  | [] => []
  | c :: r =>
      if c = chDQ || c = chBS then chBS :: c :: escStr r else c :: escStr r

mutual

/-- `exports.sexp` restricted to `SVal`: the `isString`, `isArray`,
`isBoolean` and `isNumber` branches of the dispatcher, each delegating to
`exports.string` / `exports.list` / `exports.bool` / `exports.number`. -/
def serV : SVal → List Char
  | .str s => chDQ :: (escStr s.data ++ [chDQ])
  | .num n => n.toStr.data
  | .bool b => if b then ['t'] else ['n', 'i', 'l']
  | .list l => '(' :: (serElems l ++ [')'])

/-- `exports.list`'s body: `_(arr).map(exports.sexp).join(" ")`. -/
def serElems : List SVal → List Char
  | [] => []
  | [v] => serV v
  | v :: v2 :: vs => serV v ++ ' ' :: serElems (v2 :: vs)

end

mutual

/-- The value the round-trip claim expects back from
`parse(sexp(v))`: arrays as lists, strings as strings, numbers as
numbers, and booleans rendered as `t`/`nil` (which the parser returns as
plain strings). -/
def expectedV : SVal → JVal
  | .str s => JVal.str s
  | .num n => JVal.num n
  | .bool b => JVal.str (if b then "t" else "nil")
  | .list l => JVal.list (expectedList l)

/-- `expectedV` element-wise. -/
def expectedList : List SVal → List JVal
  | [] => []
  | v :: vs => expectedV v :: expectedList vs

end

/-- No backslash directly followed by a space or a newline (the pattern
the string unescaper's first pass `replace(/\\[ \n]/g, "")` deletes). -/
def noBsWs : List Char → Bool
  | [] => true
  | [_] => true
  | c :: c2 :: r =>
      !(c = chBS && (c2 = ' ' || c2 = chNL)) && noBsWs (c2 :: r)

mutual

/-- Serializable-and-recoverable values: the well-formedness under which
the amended round-trip holds.  Strings must be non-empty (`""` parses
back as a falsy value, which the element loop and the `||` chain treat
as failure) and may not contain a double quote (the parser's string
token always ends at the first quote, escaped or not) nor a backslash
directly before a space/newline (eaten as a line continuation); numbers
must be non-`NaN` decimals in canonical form with a non-empty fraction
(integers serialize without a point and the grammar does not parse bare
integers; the non-empty canonical fraction also keeps the reparsed value
nonzero, hence truthy). -/
def wfV : SVal → Bool
  | .str s => !s.data.isEmpty && s.data.all (· ≠ chDQ) && noBsWs s.data
  | .num (.dec _ f) => !f.isEmpty && f.all isDigitCh && canonFrac f = f
  | .num .nan => false
  | .bool _ => true
  | .list l => wfList l

/-- `wfV` element-wise. -/
def wfList : List SVal → Bool
  | [] => true
  | v :: vs => wfV v && wfList vs

end

/-! ## Token-level lemmas about the s-expression parser -/

theorem ne_of_symCont_bs {c : Char} (h : symCont c = true) : c ≠ chBS := by
  intro he; subst he; revert h; decide

theorem ne_of_symCont_dq {c : Char} (h : symCont c = true) : c ≠ chDQ := by
  intro he; subst he; revert h; decide

theorem ne_of_symStart_lp {c : Char} (h : symStart c = true) : c ≠ '(' := by
  intro he; subst he; revert h; decide

/-- A digit is not a symbol-start character. -/
theorem symStart_digit {c : Char} (h : isDigitCh c = true) :
    symStart c = false := by
  simp [symStart, h]

/-- A digit is not the backslash. -/
theorem digit_ne_bs {c : Char} (h : isDigitCh c = true) : c ≠ chBS := by
  intro he; subst he; revert h; decide

/-- A digit is not the opening paren. -/
theorem digit_ne_lp {c : Char} (h : isDigitCh c = true) : c ≠ '(' := by
  intro he; subst he; revert h; decide

/-- A digit is not the double quote. -/
theorem digit_ne_dq {c : Char} (h : isDigitCh c = true) : c ≠ chDQ := by
  intro he; subst he; revert h; decide

/-- The symbol token never matches at a digit or a dot (the leading
character class excludes `[0-9.]`). -/
theorem tokSymbol_none_at_num (c : Char) (r : List Char)
    (h : isDigitCh c = true ∨ c = '.') : tokSymbol (c :: r) = none := by
  have hbs : c ≠ chBS := by
    rcases h with h | h
    · exact digit_ne_bs h
    · subst h; decide
  have hst : symStart c = false := by
    rcases h with h | h
    · exact symStart_digit h
    · subst h; decide
  cases r with
  | nil => simp [tokSymbol, hst]
  | cons c2 t => simp [tokSymbol, hbs, hst]

/-- The numeric token on `digits '.' digits+` consumes the whole token. -/
theorem tokNumber_at_decimal (ds fs : List Char)
    (h1 : ds.all isDigitCh = true) (h2 : fs.all isDigitCh = true)
    (h3 : fs ≠ []) :
    tokNumber (ds ++ '.' :: fs) = some (jsNumOfParts ds fs, []) := by
  have hds : ds.takeWhile isDigitCh = ds :=
    List.takeWhile_eq_self_iff.2 (by simpa [List.all_eq_true] using h1)
  have hfs : fs.takeWhile isDigitCh = fs :=
    List.takeWhile_eq_self_iff.2 (by simpa [List.all_eq_true] using h2)
  have htw : (ds ++ '.' :: fs).takeWhile isDigitCh = ds := by
    rw [List.takeWhile_append, hds]
    simp [List.takeWhile_cons, isDigitCh]
  unfold tokNumber
  rw [htw]
  simp [List.drop_left, hfs, h3, List.drop_length]

/-- The numeric token does not match a bare all-digit token (the grammar
requires a decimal point). -/
theorem tokNumber_none_at_int (ds : List Char) (h : ds.all isDigitCh = true) :
    tokNumber ds = none := by
  have hds : ds.takeWhile isDigitCh = ds :=
    List.takeWhile_eq_self_iff.2 (by simpa [List.all_eq_true] using h)
  unfold tokNumber
  rw [hds]
  simp [List.drop_length]

/-- The string token only matches at a double quote. -/
theorem tokString_none (c : Char) (r : List Char) (h : c ≠ chDQ) :
    tokString (c :: r) = none := by
  simp [tokString, h]

/-- The head of a list that starts with a non-paren is not `'('`. -/
theorem head_ne_lp (c : Char) (r : List Char) (h : c ≠ '(') :
    (c :: r).head? ≠ some '(' := by
  simp [h]

/-- A string built from at least one character is truthy. -/
theorem truthy_str_mk (c : Char) (t : List Char) :
    truthyJ (JVal.str (String.mk (c :: t))) = true := by
  have h : String.mk (c :: t) ≠ "" := by
    intro he
    have hd : (String.mk (c :: t)).data = ("" : String).data := by rw [he]
    simp at hd
  simp [truthyJ, h]

/-- A decimal with a non-empty fraction list is truthy. -/
theorem truthy_num_frac (i : Nat) (f : List Char) (h : f ≠ []) :
    truthyJ (JVal.num (JSNum.dec i f)) = true := by
  simp [truthyJ, h]

/-- Claim C8 (amended): in the s-expression parser, a token of the form
`digits? '.' digits+` whose numeric value is nonzero parses to the
corresponding `Number`; a zero-valued such token (`0.0`, `.0`) is
consumed by `_number` but its value `0` is falsy, so the `||` chain
falls through to `_string` at the advanced cursor and `parse` returns
`null`; and a bare all-digit token with no decimal point matches no
production at all (the `_symbol` start class excludes digits and dot,
`_number` requires the decimal point, `_string` requires a quote), so
`parse` returns `null` with the cursor unmoved. -/
theorem C8_number_grammar :
    (∀ ds fs : List Char, ds.all isDigitCh = true → fs.all isDigitCh = true →
        fs ≠ [] → truthyJ (JVal.num (jsNumOfParts ds fs)) = true →
        parse (String.mk (ds ++ '.' :: fs))
          = PRes.ok (JVal.num (jsNumOfParts ds fs)) []) ∧
    (∀ ds fs : List Char, ds.all isDigitCh = true → fs.all isDigitCh = true →
        fs ≠ [] → truthyJ (JVal.num (jsNumOfParts ds fs)) = false →
        parse (String.mk (ds ++ '.' :: fs)) = PRes.stop none []) ∧
    (∀ ds : List Char, ds ≠ [] → ds.all isDigitCh = true →
        parse (String.mk ds) = PRes.stop none ds) := by
  have hmain : ∀ ds fs : List Char, ds.all isDigitCh = true →
      fs.all isDigitCh = true → fs ≠ [] →
      parse (String.mk (ds ++ '.' :: fs))
        = (if truthyJ (JVal.num (jsNumOfParts ds fs)) then
            PRes.ok (JVal.num (jsNumOfParts ds fs)) []
          else PRes.stop none []) := by
    intro ds fs h1 h2 h3
    have hd1 : ∀ d ∈ ds, isDigitCh d = true := by
      simpa [List.all_eq_true] using h1
    have hsym : tokSymbol (ds ++ '.' :: fs) = none := by
      cases ds with
      | nil => exact tokSymbol_none_at_num _ _ (Or.inr rfl)
      | cons d t =>
          exact tokSymbol_none_at_num _ _ (Or.inl (hd1 d (by simp)))
    have hnum := tokNumber_at_decimal ds fs h1 h2 h3
    have hlp : (ds ++ '.' :: fs).head? ≠ some '(' := by
      cases ds with
      | nil => simp [head_ne_lp '.' fs]
      | cons d t =>
          simpa using head_ne_lp d (t ++ '.' :: fs)
            (digit_ne_lp (hd1 d (by simp)))
    show expF ((ds ++ '.' :: fs).length + 1) (ds ++ '.' :: fs) = _
    rw [expF_succ]
    rw [if_neg hlp]
    cases htr : truthyJ (JVal.num (jsNumOfParts ds fs)) with
    | true => simp [tokDispatch, tokNumberP, hsym, hnum, htr]
    | false =>
        simp [tokDispatch, tokNumberP, tokStringP, hsym, hnum, htr,
              tokString]
  refine ⟨fun ds fs h1 h2 h3 htr => ?_, fun ds fs h1 h2 h3 htr => ?_,
          fun ds h0 h1 => ?_⟩
  · rw [hmain ds fs h1 h2 h3, if_pos htr]
  · rw [hmain ds fs h1 h2 h3, if_neg (by simp [htr])]
  · have hd1 : ∀ d ∈ ds, isDigitCh d = true := by
      simpa [List.all_eq_true] using h1
    have hnum := tokNumber_none_at_int ds h1
    cases ds with
    | nil => simp at h0
    | cons d t =>
        have hd : isDigitCh d = true := hd1 d (by simp)
        have hsym := tokSymbol_none_at_num d t (Or.inl hd)
        show expF ((d :: t).length + 1) (d :: t) = _
        rw [expF_succ]
        rw [if_neg (head_ne_lp d t (digit_ne_lp hd))]
        simp [tokDispatch, tokNumberP, tokStringP, hsym, hnum,
              tokString_none d t (digit_ne_dq hd)]

/-- Witness for the amended C8 at the tokens `"1.5"` (a nonzero decimal),
`"0.0"` (a falsy decimal) and `"42"` (a bare integer). -/
theorem C8_number_grammar_witness :
    parse (String.mk ['1', '.', '5'])
        = PRes.ok (JVal.num (jsNumOfParts ['1'] ['5'])) [] ∧
    parse (String.mk ['0', '.', '0']) = PRes.stop none [] ∧
    parse (String.mk ['4', '2']) = PRes.stop none ['4', '2'] :=
  ⟨C8_number_grammar.1 ['1'] ['5'] rfl rfl (by simp) (by decide),
   C8_number_grammar.2.1 ['0'] ['0'] rfl rfl (by simp) (by decide),
   C8_number_grammar.2.2 ['4', '2'] (by simp) rfl⟩

/-- Counterexample to C8 as stated: the token `0.0` matches
`digits? '.' digits+`, yet `parse` does not return a `Number` for it —
`_number` consumes it, the falsy `0` sends the `||` chain on to
`_string` at the end of the input, and the result is `null`. -/
theorem C8_zero_token_counterexample :
    parse "0.0" = PRes.stop none []
    ∧ parse ".0" = PRes.stop none []
    ∧ (∀ (n : JSNum) (rest : List Char),
        parse "0.0" ≠ PRes.ok (JVal.num n) rest) :=
  ⟨rfl, rfl, fun _ _ h => PRes.noConfusion h⟩

/-- On a run of plain continuation characters the symbol tail takes
everything. -/
theorem symTail_all_cont (l : List Char) (h : ∀ d ∈ l, symCont d = true) :
    symTail l = (l, []) := by
  induction l with
  | nil => rfl
  | cons c r ih =>
      have hc : symCont c = true := h c (by simp)
      have hbs : c ≠ chBS := ne_of_symCont_bs hc
      cases r with
      | nil =>
          simp [symTail, hc, hbs]
      | cons c2 t =>
          have ih2 := ih (fun d hd => h d (by simp [hd]))
          simp only [symTail]
          rw [if_neg (by simp [hbs]), if_pos hc, ih2]

/-- Unescaping is the identity on backslash-free text. -/
theorem unescape_no_bs (l : List Char) (h : ∀ d ∈ l, d ≠ chBS) :
    unescape l = l := by
  induction l with
  | nil => rfl
  | cons c r ih =>
      have hc := h c (by simp)
      cases r with
      | nil => rfl
      | cons c2 t =>
          simp only [unescape]
          rw [if_neg (by simp [hc]), ih (fun d hd => h d (by simp [hd]))]

/-- The line-continuation strip is the identity on backslash-free text. -/
theorem stripLineCont_no_bs (l : List Char) (h : ∀ d ∈ l, d ≠ chBS) :
    stripLineCont l = l := by
  induction l with
  | nil => rfl
  | cons c r ih =>
      have hc := h c (by simp)
      cases r with
      | nil => rfl
      | cons c2 t =>
          simp only [stripLineCont]
          rw [if_neg (by simp [hc]), ih (fun d hd => h d (by simp [hd]))]

/-- `takeWhile (· ≠ x)` on a list of non-`x` characters followed by `x`
takes exactly that list. -/
theorem takeWhile_ne_append (l : List Char) (x : Char) (rest : List Char)
    (h : ∀ d ∈ l, d ≠ x) :
    (l ++ x :: rest).takeWhile (· ≠ x) = l := by
  induction l with
  | nil => simp [List.takeWhile_cons]
  | cons c r ih =>
      have hc : c ≠ x := h c (by simp)
      rw [List.cons_append, List.takeWhile_cons, if_pos (by simpa using hc),
          ih (fun d hd => h d (by simp [hd]))]

/-- The string token on a quote, quote-free content, the closing quote and
a tail: the content always ends at the first quote, then the two
`replace` passes run. -/
theorem tokString_at (l rest : List Char) (h : ∀ d ∈ l, d ≠ chDQ) :
    tokString (chDQ :: (l ++ chDQ :: rest))
      = some (String.mk (unescape (stripLineCont l)), rest) := by
  simp only [tokString]
  rw [if_pos trivial, takeWhile_ne_append l chDQ rest h]
  simp [List.drop_left]

/-- Claim C10: a symbol token made only of plain (escape-free) symbol
characters parses to the same JS value as the same text wrapped in string
quotes; both are plain strings, because the `lispType = 'symbol'`
annotation is assigned to a string primitive and silently lost.  The
theorem also pins down that shared value. -/
theorem C10_symbol_string_indistinguishable :
    ∀ (c : Char) (t : List Char), symStart c = true →
      (∀ d ∈ c :: t, symCont d = true) →
      parse (String.mk (chDQ :: ((c :: t) ++ [chDQ])))
          = parse (String.mk (c :: t)) ∧
      parse (String.mk (c :: t)) = PRes.ok (JVal.str (String.mk (c :: t))) [] := by
  intro c t hst hall
  have hcc : symCont c = true := hall c (by simp)
  have hnobs : ∀ d ∈ c :: t, d ≠ chBS := fun d hd =>
    ne_of_symCont_bs (hall d hd)
  have hnodq : ∀ d ∈ c :: t, d ≠ chDQ := fun d hd =>
    ne_of_symCont_dq (hall d hd)
  have hsymParse : parse (String.mk (c :: t))
      = PRes.ok (JVal.str (String.mk (c :: t))) [] := by
    show expF ((c :: t).length + 1) (c :: t) = _
    rw [expF_succ]
    rw [if_neg (head_ne_lp c t (ne_of_symStart_lp hst))]
    have htok : tokSymbol (c :: t) = some (String.mk (c :: t), []) := by
      cases t with
      | nil => simp [tokSymbol, hst]
      | cons c2 r =>
          have htail : symTail (c2 :: r) = (c2 :: r, []) :=
            symTail_all_cont _ (fun d hd => hall d (by simp [hd]))
          have hun : unescape (c :: c2 :: r) = c :: c2 :: r :=
            unescape_no_bs _ hnobs
          simp only [tokSymbol]
          rw [if_neg (by simp [ne_of_symCont_bs hcc]), if_pos hst, htail]
          simpa using congrArg (fun l => some (String.mk l, ([] : List Char))) hun
    simp [tokDispatch, htok, truthy_str_mk]
  refine ⟨?_, hsymParse⟩
  have hstrParse : parse (String.mk (chDQ :: ((c :: t) ++ [chDQ])))
      = PRes.ok (JVal.str (String.mk (c :: t))) [] := by
    show expF _ (chDQ :: ((c :: t) ++ [chDQ])) = _
    rw [expF_succ]
    rw [if_neg (head_ne_lp chDQ _ (by decide))]
    have hsymN : tokSymbol (chDQ :: ((c :: t) ++ [chDQ])) = none := by
      simp [tokSymbol, symStart, symCont, chDQ, chBS]
    have hnumN : tokNumber (chDQ :: ((c :: t) ++ [chDQ])) = none := by
      unfold tokNumber
      simp [List.takeWhile_cons, isDigitCh, chDQ]
    have hstr : tokString (chDQ :: ((c :: t) ++ [chDQ]))
        = some (String.mk (c :: t), []) := by
      have := tokString_at (c :: t) [] hnodq
      rw [stripLineCont_no_bs _ hnobs, unescape_no_bs _ hnobs] at this
      exact this
    simp only [List.cons_append] at hsymN hnumN hstr
    simp [tokDispatch, tokNumberP, tokStringP, hsymN, hnumN, hstr,
          truthy_str_mk]
  rw [hstrParse, hsymParse]

/-- Witness for C10 at the symbol `foo`. -/
theorem C10_symbol_string_indistinguishable_witness :
    parse (String.mk (chDQ :: (['f', 'o', 'o'] ++ [chDQ])))
        = parse (String.mk ['f', 'o', 'o']) ∧
    parse (String.mk ['f', 'o', 'o'])
        = PRes.ok (JVal.str (String.mk ['f', 'o', 'o'])) [] :=
  C10_symbol_string_indistinguishable 'f' ['o', 'o'] (by decide)
    (by decide)

/-! ## Decimal rendering of naturals

`Number.prototype.toString` on a natural is `Nat.repr`; these lemmas show
the rendered digit string is non-empty, all digits, and evaluates back to
the number. -/

theorem natOfDigits_append_one (l : List Char) (d : Char) :
    natOfDigits (l ++ [d]) = 10 * natOfDigits l + (d.toNat - 48) := by
  simp [natOfDigits, List.foldl_append, Nat.mul_comm]

theorem digitChar_spec (m : Nat) (h : m < 10) :
    (Nat.digitChar m).toNat = 48 + m ∧ isDigitCh (Nat.digitChar m) = true := by
  interval_cases m <;> exact ⟨by decide, by decide⟩

theorem toDigitsCore_spec :
    ∀ (fuel n : Nat) (acc : List Char), 0 < fuel → n < 10 ^ fuel →
      ∃ ds : List Char, Nat.toDigitsCore 10 fuel n acc = ds ++ acc ∧
        ds ≠ [] ∧ ds.all isDigitCh = true ∧ natOfDigits ds = n := by
  intro fuel
  induction fuel with
  | zero => intro n acc h0 _; exact absurd h0 (by omega)
  | succ f ih =>
      intro n acc _ hlt
      have hm : n % 10 < 10 := Nat.mod_lt _ (by norm_num)
      obtain ⟨hdv, hdd⟩ := digitChar_spec (n % 10) hm
      by_cases hdiv : n / 10 = 0
      · refine ⟨[Nat.digitChar (n % 10)], ?_, by simp, by simp [hdd], ?_⟩
        · simp [Nat.toDigitsCore, hdiv]
        · have : n < 10 := by omega
          simp [natOfDigits, hdv]
          omega
      · have hf : 0 < f := by
          by_contra hf0
          have : f = 0 := by omega
          subst this
          simp at hlt
          omega
        have hlt' : n / 10 < 10 ^ f :=
          Nat.nat_repr_len_aux n 10 f (by norm_num) hlt
        obtain ⟨ds, heq, hne, hall, hval⟩ :=
          ih (n / 10) (Nat.digitChar (n % 10) :: acc) hf hlt'
        refine ⟨ds ++ [Nat.digitChar (n % 10)], ?_, by simp, ?_, ?_⟩
        · rw [Nat.toDigitsCore]
          simp only [hdiv, if_false]
          rw [heq, List.append_assoc, List.singleton_append]
        · simp only [List.all_append, hall, Bool.true_and, List.all_cons,
            List.all_nil, hdd, Bool.and_true]
        · rw [natOfDigits_append_one, hval, hdv]
          omega

theorem repr_spec (n : Nat) :
    (Nat.repr n).data ≠ [] ∧ (Nat.repr n).data.all isDigitCh = true ∧
      natOfDigits (Nat.repr n).data = n := by
  have h1 : n < 10 ^ (n + 1) := by
    calc n < 10 ^ n := Nat.lt_pow_self (by norm_num) n
      _ ≤ 10 ^ (n + 1) := Nat.pow_le_pow_right (by norm_num) (Nat.le_succ n)
  obtain ⟨ds, heq, hne, hall, hval⟩ :=
    toDigitsCore_spec (n + 1) n [] (by omega) h1
  have hds : (Nat.repr n).data = ds := by
    show (Nat.toDigits 10 n).asString.data = ds
    simp [Nat.toDigits, List.asString, heq]
  rw [hds]
  exact ⟨hne, hall, hval⟩

/-! ## Character-class bridge lemmas -/

theorem char_ne_of_bounds {c : Char} {lo hi : Nat} (h1 : lo ≤ c.toNat)
    (h2 : c.toNat ≤ hi) (d : Char) (hd : d.toNat < lo ∨ hi < d.toNat) :
    c ≠ d := by
  intro he; subst he; omega

theorem digit_bounds {c : Char} (h : isDigitCh c = true) :
    48 ≤ c.toNat ∧ c.toNat ≤ 57 := by
  simpa [isDigitCh, Bool.and_eq_true, decide_eq_true_eq] using h

/-- Digits are legal symbol continuation characters. -/
theorem digit_symCont {c : Char} (h : isDigitCh c = true) : symCont c = true := by
  obtain ⟨h1, h2⟩ := digit_bounds h
  have n01 : c ≠ '#' := char_ne_of_bounds h1 h2 _ (by decide)
  have n02 : c ≠ chDQ := char_ne_of_bounds h1 h2 _ (by decide)
  have n03 : c ≠ chSQ := char_ne_of_bounds h1 h2 _ (by decide)
  have n04 : c ≠ '(' := char_ne_of_bounds h1 h2 _ (by decide)
  have n05 : c ≠ ')' := char_ne_of_bounds h1 h2 _ (by decide)
  have n06 : c ≠ '[' := char_ne_of_bounds h1 h2 _ (by decide)
  have n07 : c ≠ ']' := char_ne_of_bounds h1 h2 _ (by decide)
  have n08 : c ≠ chBS := char_ne_of_bounds h1 h2 _ (by decide)
  have n09 : c ≠ chBT := char_ne_of_bounds h1 h2 _ (by decide)
  have n10 : c ≠ ' ' := char_ne_of_bounds h1 h2 _ (by decide)
  have n11 : c ≠ '\t' := char_ne_of_bounds h1 h2 _ (by decide)
  have n12 : c ≠ chNL := char_ne_of_bounds h1 h2 _ (by decide)
  have n13 : c ≠ Char.ofNat 13 := char_ne_of_bounds h1 h2 _ (by decide)
  have n14 : c ≠ Char.ofNat 12 := char_ne_of_bounds h1 h2 _ (by decide)
  have n15 : c ≠ Char.ofNat 11 := char_ne_of_bounds h1 h2 _ (by decide)
  simp [symCont, isWsCh, n01, n02, n03, n04, n05, n06, n07, n08, n09, n10,
        n11, n12, n13, n14, n15]

theorem digit_not_ws {c : Char} (h : isDigitCh c = true) : isWsCh c = false := by
  obtain ⟨h1, h2⟩ := digit_bounds h
  have n10 : c ≠ ' ' := char_ne_of_bounds h1 h2 _ (by decide)
  have n11 : c ≠ '\t' := char_ne_of_bounds h1 h2 _ (by decide)
  have n12 : c ≠ chNL := char_ne_of_bounds h1 h2 _ (by decide)
  have n13 : c ≠ Char.ofNat 13 := char_ne_of_bounds h1 h2 _ (by decide)
  have n14 : c ≠ Char.ofNat 12 := char_ne_of_bounds h1 h2 _ (by decide)
  have n15 : c ≠ Char.ofNat 11 := char_ne_of_bounds h1 h2 _ (by decide)
  simp [isWsCh, n10, n11, n12, n13, n14, n15]

theorem digit_ne_semi {c : Char} (h : isDigitCh c = true) : c ≠ ';' := by
  obtain ⟨h1, h2⟩ := digit_bounds h
  exact char_ne_of_bounds h1 h2 _ (by decide)

theorem digit_ne_dot {c : Char} (h : isDigitCh c = true) : c ≠ '.' := by
  obtain ⟨h1, h2⟩ := digit_bounds h
  exact char_ne_of_bounds h1 h2 _ (by decide)

/-! ## Round-trip support: token behaviour on serialized output

In the serializer's output every token inside a list is followed by a
single space or the closing paren, and the top-level token by the end of
input; `stopRest` captures those three continuations. -/

def stopRest : List Char → Prop
  | [] => True
  | c :: _ => c = ' ' ∨ c = ')'

theorem stop_not_symCont {c : Char} (h : c = ' ' ∨ c = ')') :
    symCont c = false := by
  rcases h with h | h <;> subst h <;> decide

theorem stop_ne_bs {c : Char} (h : c = ' ' ∨ c = ')') : c ≠ chBS := by
  rcases h with h | h <;> subst h <;> decide

theorem stop_not_digit {c : Char} (h : c = ' ' ∨ c = ')') :
    isDigitCh c = false := by
  rcases h with h | h <;> subst h <;> decide

/-- Unfolding equation for `symTail` on two or more characters, with the
pair-destructuring `let` rendered through projections. -/
theorem symTail_cons2 (c c2 : Char) (r : List Char) :
    symTail (c :: c2 :: r) =
      if c = chBS && c2 ≠ chNL then
        (c :: c2 :: (symTail r).1, (symTail r).2)
      else if symCont c then
        (c :: (symTail (c2 :: r)).1, (symTail (c2 :: r)).2)
      else ([], c :: c2 :: r) := rfl

/-- The symbol tail takes exactly a run of continuation characters when a
stopper (or the end of input) follows. -/
theorem symTail_append (t rest : List Char)
    (h : ∀ d ∈ t, symCont d = true) (hr : stopRest rest) :
    symTail (t ++ rest) = (t, rest) := by
  induction t with
  | nil =>
      simp only [List.nil_append]
      cases rest with
      | nil => rfl
      | cons x r =>
          have hx : x = ' ' ∨ x = ')' := hr
          have hxc : symCont x = false := stop_not_symCont hx
          have hxb : x ≠ chBS := stop_ne_bs hx
          cases r with
          | nil => simp [symTail, hxc, hxb]
          | cons y r2 =>
              rw [symTail_cons2, if_neg (by simp [hxb]), if_neg (by simp [hxc])]
  | cons c t' ih =>
      have hc : symCont c = true := h c (by simp)
      have hbs : c ≠ chBS := ne_of_symCont_bs hc
      rw [List.cons_append]
      cases hx : t' ++ rest with
      | nil =>
          obtain ⟨ht', hre⟩ := List.append_eq_nil.mp hx
          subst ht'; subst hre
          simp [symTail, hc, hbs]
      | cons y ys =>
          rw [symTail_cons2, if_neg (by simp [hbs]), if_pos hc, ← hx,
              ih (fun d hd => h d (by simp [hd]))]

/-- The symbol token on an escape-free symbol word followed by a
stopper. -/
theorem tokSymbol_plain (c : Char) (t rest : List Char)
    (hst : symStart c = true) (hcont : ∀ d ∈ t, symCont d = true)
    (hr : stopRest rest) :
    tokSymbol ((c :: t) ++ rest) = some (String.mk (c :: t), rest) := by
  have hcc : symCont c = true := by
    have := hst
    simp [symStart, Bool.and_eq_true] at this
    exact this.1.1
  have hbs : c ≠ chBS := ne_of_symCont_bs hcc
  have hnobs : ∀ d ∈ c :: t, d ≠ chBS := by
    intro d hd
    rcases List.mem_cons.mp hd with h | h
    · subst h; exact hbs
    · exact ne_of_symCont_bs (hcont d h)
  rw [List.cons_append]
  cases hx : t ++ rest with
  | nil =>
      obtain ⟨ht, hre⟩ := List.append_eq_nil.mp hx
      subst ht; subst hre
      simp [tokSymbol, hst]
  | cons y ys =>
      have htok : tokSymbol (c :: y :: ys) =
          if c = chBS && y ≠ chNL then
            some (String.mk (unescape (c :: y :: (symTail ys).1)),
              (symTail ys).2)
          else if symStart c then
            some (String.mk (unescape (c :: (symTail (y :: ys)).1)),
              (symTail (y :: ys)).2)
          else none := rfl
      rw [htok, if_neg (by simp [hbs]), if_pos hst, ← hx,
          symTail_append t rest hcont hr, unescape_no_bs _ hnobs]

/-- The symbol token fails at any non-start, non-backslash character. -/
theorem tokSymbol_none_start (c : Char) (r : List Char) (hbs : c ≠ chBS)
    (hst : symStart c = false) : tokSymbol (c :: r) = none := by
  cases r with
  | nil => simp [tokSymbol, hst]
  | cons c2 t =>
      simp only [tokSymbol]
      rw [if_neg (by simp [hbs]), if_neg (by simp [hst])]

/-- The numeric token on `digits '.' digits+` followed by a stopper
consumes exactly the decimal and converts it. -/
theorem tokNumber_sep (ip f rest : List Char)
    (h1 : ip.all isDigitCh = true) (h2 : f.all isDigitCh = true)
    (h3 : f ≠ []) (hr : stopRest rest) :
    tokNumber (ip ++ '.' :: (f ++ rest)) = some (jsNumOfParts ip f, rest) := by
  have hip : ip.takeWhile isDigitCh = ip :=
    List.takeWhile_eq_self_iff.2 (by simpa [List.all_eq_true] using h1)
  have htw : (ip ++ '.' :: (f ++ rest)).takeWhile isDigitCh = ip := by
    rw [List.takeWhile_append, hip]
    simp [List.takeWhile_cons, isDigitCh]
  have hf : f.takeWhile isDigitCh = f :=
    List.takeWhile_eq_self_iff.2 (by simpa [List.all_eq_true] using h2)
  have hfr : (f ++ rest).takeWhile isDigitCh = f := by
    rw [List.takeWhile_append, hf]
    cases rest with
    | nil => simp
    | cons x r =>
        have hx : isDigitCh x = false := stop_not_digit hr
        simp [List.takeWhile_cons, hx]
  unfold tokNumber
  rw [htw]
  simp only [List.drop_left]
  rw [hfr]
  simp [h3, List.drop_left]

/-- The numeric token fails when the head is neither a digit nor the
decimal point. -/
theorem tokNumber_none_head (c : Char) (r : List Char)
    (h1 : isDigitCh c = false) (h2 : c ≠ '.') : tokNumber (c :: r) = none := by
  unfold tokNumber
  rw [List.takeWhile_cons, if_neg (by simp [h1])]
  simp only [List.length_nil, List.drop_zero]
  split
  · rename_i heq
    injection heq with hce
    exact absurd hce h2
  · rfl

/-- `exp` does not match at a closing paren: every token class rejects
`)` and the paren branch needs `(`, so the chain returns `null` with the
cursor unmoved. -/
theorem expF_rparen (fuel : Nat) (r : List Char) (h : 1 ≤ fuel) :
    expF fuel (')' :: r) = PRes.stop none (')' :: r) := by
  cases fuel with
  | zero => omega
  | succ f =>
      rw [expF_succ]
      rw [if_neg (head_ne_lp ')' r (by decide))]
      simp [tokDispatch, tokNumberP, tokStringP,
            tokSymbol_none_start ')' r (by decide) (by decide),
            tokNumber_none_head ')' r (by decide) (by decide),
            tokString_none ')' r (by decide)]

/-! ## Escaping round trip for the string serializer -/

/-- Escaped quote-free text contains no double quote: the serializer only
inserts backslashes. -/
theorem escStr_no_dq (l : List Char) (h : ∀ d ∈ l, d ≠ chDQ) :
    ∀ d ∈ escStr l, d ≠ chDQ := by
  induction l with
  | nil => simp [escStr]
  | cons c r ih =>
      have hcd : c ≠ chDQ := h c (by simp)
      have ih2 := ih (fun d hd => h d (by simp [hd]))
      intro d hd
      simp only [escStr] at hd
      by_cases hb : c = chBS
      · subst hb
        rw [if_pos (by simp)] at hd
        rcases List.mem_cons.mp hd with h1 | h1
        · subst h1; decide
        · rcases List.mem_cons.mp h1 with h2 | h2
          · subst h2; decide
          · exact ih2 d h2
      · rw [if_neg (by simp [hcd, hb])] at hd
        rcases List.mem_cons.mp hd with h1 | h1
        · subst h1; exact hcd
        · exact ih2 d h1

/-- `escStr` yields the empty list only on the empty list. -/
theorem escStr_eq_nil {r : List Char} (h : escStr r = []) : r = [] := by
  cases r with
  | nil => rfl
  | cons c t =>
      exfalso
      by_cases hb : c = chDQ || c = chBS
      · rw [escStr, if_pos hb] at h; exact List.noConfusion h
      · rw [escStr, if_neg hb] at h; exact List.noConfusion h

/-- A cons headed by a non-backslash keeps `noBsWs` of the tail. -/
theorem noBsWs_cons_ne (c : Char) (X : List Char) (hc : c ≠ chBS) :
    noBsWs (c :: X) = noBsWs X := by
  cases X with
  | nil => simp [noBsWs]
  | cons y ys => simp [noBsWs, hc]

/-- A cons headed by a backslash keeps `noBsWs` of the tail when the next
character is not a space or newline. -/
theorem noBsWs_cons_bs (X : List Char)
    (hh : ∀ y, X.head? = some y → ¬(y = ' ' ∨ y = chNL)) :
    noBsWs (chBS :: X) = noBsWs X := by
  cases X with
  | nil => simp [noBsWs]
  | cons y ys =>
      have := hh y rfl
      simp [noBsWs, this]
      simp at this
      simp [this.1, this.2]

/-- `noBsWs` restricted to the tail. -/
theorem noBsWs_tail {c : Char} {X : List Char} (h : noBsWs (c :: X) = true) :
    noBsWs X = true := by
  cases X with
  | nil => rfl
  | cons y ys =>
      rw [noBsWs, Bool.and_eq_true] at h
      exact h.2

/-- The serializer's escaping preserves the absence of backslash-space
and backslash-newline pairs on quote-free input. -/
theorem noBsWs_escStr (l : List Char) (hq : ∀ d ∈ l, d ≠ chDQ)
    (h : noBsWs l = true) : noBsWs (escStr l) = true := by
  induction l with
  | nil => rfl
  | cons c r ih =>
      have hcd : c ≠ chDQ := hq c (by simp)
      have ih2 := ih (fun d hd => hq d (by simp [hd])) (noBsWs_tail h)
      by_cases hb : c = chBS
      · subst hb
        rw [escStr, if_pos (by simp)]
        rw [noBsWs_cons_bs _ (by intro y hy; injection hy with hy; subst hy; decide)]
        rw [noBsWs_cons_bs _ ?_]
        · exact ih2
        · intro y hy hws
          cases r with
          | nil => rw [escStr] at hy; exact Option.noConfusion hy
          | cons z zs =>
              rw [noBsWs, Bool.and_eq_true] at h
              have h1 := h.1
              by_cases hz : z = chDQ || z = chBS
              · rw [escStr, if_pos hz] at hy
                injection hy with hy
                subst hy
                rcases hws with hws | hws <;> revert hws <;> decide
              · rw [escStr, if_neg hz] at hy
                injection hy with hy
                subst hy
                simp at h1
                rcases hws with hws | hws
                · exact absurd h1.1 (by simp [hws])
                · exact absurd h1.2 (by simp [hws])
      · rw [escStr, if_neg (by simp [hcd, hb]), noBsWs_cons_ne _ _ hb]
        exact ih2

/-- The line-continuation strip is the identity exactly on text with no
backslash-space/newline pair. -/
theorem stripLineCont_id (m : List Char) (h : noBsWs m = true) :
    stripLineCont m = m := by
  induction m with
  | nil => rfl
  | cons c X ih =>
      cases X with
      | nil => rfl
      | cons c2 r =>
          rw [noBsWs, Bool.and_eq_true] at h
          have h1 := h.1
          rw [stripLineCont,
              if_neg (by intro hcond; rw [hcond] at h1; simp at h1), ih h.2]

/-- Unescaping inverts the serializer's escaping. -/
theorem unescape_escStr (l : List Char) : unescape (escStr l) = l := by
  induction l with
  | nil => rfl
  | cons c r ih =>
      by_cases hb : c = chDQ || c = chBS
      · rw [escStr, if_pos hb]
        have hcnl : c ≠ chNL := by
          rcases Bool.or_eq_true .. ▸ hb with h | h <;>
            simp only [decide_eq_true_eq] at h <;> subst h <;> decide
        rw [unescape, if_pos (by simp [hcnl]), ih]
      · rw [escStr, if_neg hb]
        have hcb : c ≠ chBS := by
          intro he; subst he; simp at hb
        cases hE : escStr r with
        | nil =>
            have : r = [] := escStr_eq_nil hE
            subst this
            rfl
        | cons y ys =>
            rw [unescape, if_neg (by simp [hcb]), ← hE, ih]

/-! ## Serializer output shape -/

/-- The rendering of a decimal with a non-empty fraction part splits into
the integer digits, the point, and the fraction digits. -/
theorem serV_num_frac (i : Nat) (f : List Char) (hf : f ≠ []) :
    serV (SVal.num (JSNum.dec i f)) = (Nat.repr i).data ++ '.' :: f := by
  cases f with
  | nil => exact absurd rfl hf
  | cons f0 fr =>
      show ((JSNum.dec i (f0 :: fr)).toStr).data = _
      rw [show (JSNum.dec i (f0 :: fr)).toStr
          = toString i ++ "." ++ String.mk (f0 :: fr) from rfl,
        String.data_append, String.data_append,
        show (toString i) = Nat.repr i from rfl]
      simp

/-- Every serialization is non-empty. -/
theorem serV_ne_nil (v : SVal) : serV v ≠ [] := by
  cases v with
  | str s => simp [serV]
  | num n =>
      cases n with
      | dec i f =>
          cases f with
          | nil =>
              show ((JSNum.dec i []).toStr).data ≠ []
              exact (repr_spec i).1
          | cons f0 fr =>
              rw [serV_num_frac i (f0 :: fr) (by simp)]
              simp
      | nan =>
          show ("NaN" : String).data ≠ []
          simp
  | bool b => cases b <;> simp [serV]
  | list l => simp [serV]

/-- The first character of a serialization is never whitespace or a
semicolon, so `_ws` does not move past it. -/
theorem serV_head_ok (v : SVal) (c : Char) (r : List Char)
    (h : serV v = c :: r) : isWsCh c = false ∧ c ≠ ';' := by
  cases v with
  | str s =>
      rw [serV] at h
      injection h with h1 _
      subst h1
      exact ⟨by decide, by decide⟩
  | num n =>
      cases n with
      | dec i f =>
          cases f with
          | nil =>
              have h' : (Nat.repr i).data = c :: r := h
              obtain ⟨_, hall, _⟩ := repr_spec i
              have hc : isDigitCh c = true := by
                rw [List.all_eq_true] at hall
                exact hall c (by rw [h']; simp)
              exact ⟨digit_not_ws hc, digit_ne_semi hc⟩
          | cons f0 fr =>
              rw [serV_num_frac i (f0 :: fr) (by simp)] at h
              obtain ⟨hne, hall, _⟩ := repr_spec i
              cases hR : (Nat.repr i).data with
              | nil => exact absurd hR hne
              | cons d R =>
                  rw [hR, List.cons_append] at h
                  injection h with h1 _
                  have hc : isDigitCh d = true := by
                    rw [List.all_eq_true] at hall
                    exact hall d (by rw [hR]; simp)
                  exact h1 ▸ ⟨digit_not_ws hc, digit_ne_semi hc⟩
      | nan =>
          have h' : ("NaN" : String).data = c :: r := h
          rw [show ("NaN" : String).data = ['N', 'a', 'N'] from rfl] at h'
          injection h' with h1 _
          exact h1 ▸ ⟨by decide, by decide⟩
  | bool b =>
      cases b <;> rw [serV] at h <;> injection h with h1 _ <;> subst h1 <;>
        exact ⟨by decide, by decide⟩
  | list l =>
      rw [serV] at h
      injection h with h1 _
      subst h1
      exact ⟨by decide, by decide⟩

/-- `_ws` is the identity when the head is neither whitespace nor a
comment start. -/
theorem wsCons_keep (c : Char) (r : List Char) (h1 : isWsCh c = false)
    (h2 : c ≠ ';') : wsCons (c :: r) = c :: r := by
  show wsConsA false (c :: r) = c :: r
  unfold wsConsA
  rw [if_neg (by simp [h1]), if_neg h2]

/-- `_ws` consumes a single leading space and continues. -/
theorem wsCons_space (X : List Char) : wsCons (' ' :: X) = wsCons X := rfl

/-- The elements of a list serialization are the first element's
rendering followed by either nothing or a space and the rest. -/
theorem serElems_cons (v : SVal) (vs : List SVal) :
    serElems (v :: vs)
      = serV v ++ (match vs with
        | [] => []
        | _ :: _ => ' ' :: serElems vs) := by
  cases vs with
  | nil => simp [serElems]
  | cons v2 vs' => rfl

/-- `_ws` does not move at the start of serialized list elements. -/
theorem wsCons_serElems (l : List SVal) (rest : List Char) :
    wsCons (serElems l ++ ')' :: rest) = serElems l ++ ')' :: rest := by
  cases l with
  | nil =>
      show wsCons (')' :: rest) = _
      exact wsCons_keep ')' rest (by decide) (by decide)
  | cons v vs =>
      cases hsv : serV v with
      | nil => exact absurd hsv (serV_ne_nil v)
      | cons c r =>
          obtain ⟨h1, h2⟩ := serV_head_ok v c r hsv
          rw [serElems_cons, hsv, List.cons_append, List.cons_append]
          exact wsCons_keep c _ h1 h2

/-! ## Fuel accounting for the round trip -/

mutual

/-- Fuel needed by `exp` on a serialized value (one unit per mutual
call). -/
def sizeS : SVal → Nat
  | .list l => 1 + sizeE l
  | _ => 1

/-- Fuel needed by the element loop on serialized elements followed by
the closing paren. -/
def sizeE : List SVal → Nat
  | [] => 2
  | v :: vs => 1 + max (sizeS v) (sizeE vs)

end

theorem sizeS_pos (v : SVal) : 1 ≤ sizeS v := by
  cases v <;> simp [sizeS]

theorem sizeE_ge (l : List SVal) : 2 ≤ sizeE l := by
  cases l with
  | nil => simp [sizeE]
  | cons v vs =>
      have h1 := sizeS_pos v
      have h2 := Nat.le_max_left (sizeS v) (sizeE vs)
      simp only [sizeE]
      omega

mutual

theorem sizeS_le_len : ∀ v : SVal, sizeS v ≤ (serV v).length + 1
  | .str s => by simp [sizeS]
  | .num n => by simp [sizeS]
  | .bool b => by simp [sizeS]
  | .list l => by
      have h := sizeE_le_len l
      simp only [sizeS, serV, List.length_cons, List.length_append]
      omega

theorem sizeE_le_len : ∀ l : List SVal, sizeE l ≤ (serElems l).length + 2
  | [] => by simp [sizeE]
  | [v] => by
      have h1 := sizeS_le_len v
      have h2 : 1 ≤ (serV v).length := List.length_pos.mpr (serV_ne_nil v)
      have hm : max (sizeS v) 2 ≤ (serV v).length + 1 :=
        Nat.max_le.mpr ⟨h1, by omega⟩
      have hsz : sizeE [v] = 1 + max (sizeS v) 2 := rfl
      have hse : serElems [v] = serV v := rfl
      rw [hsz, hse]
      omega
  | v :: v2 :: vs => by
      have h1 := sizeS_le_len v
      have h2 := sizeE_le_len (v2 :: vs)
      have h3 : 1 ≤ (serV v).length := List.length_pos.mpr (serV_ne_nil v)
      have hm : max (sizeS v) (sizeE (v2 :: vs))
          ≤ (serV v).length + (serElems (v2 :: vs)).length + 2 :=
        Nat.max_le.mpr ⟨by omega, by omega⟩
      have hsz : sizeE (v :: v2 :: vs)
          = 1 + max (sizeS v) (sizeE (v2 :: vs)) := rfl
      have hse : serElems (v :: v2 :: vs)
          = serV v ++ ' ' :: serElems (v2 :: vs) := rfl
      rw [hsz, hse]
      simp only [List.length_append, List.length_cons]
      omega

end

/-! ## Well-formedness projections and expected values -/

theorem wfV_str_iff (s : String) :
    wfV (SVal.str s) = true
      ↔ s.data ≠ [] ∧ (∀ d ∈ s.data, d ≠ chDQ) ∧ noBsWs s.data = true := by
  rw [wfV]
  simp [Bool.and_eq_true, List.all_eq_true, List.isEmpty_iff, and_assoc]

theorem wfV_num_iff (i : Nat) (f : List Char) :
    wfV (SVal.num (JSNum.dec i f)) = true
      ↔ f ≠ [] ∧ f.all isDigitCh = true ∧ canonFrac f = f := by
  rw [wfV]
  simp [Bool.and_eq_true, List.isEmpty_iff, and_assoc]

theorem wfV_list_iff (l : List SVal) :
    wfV (SVal.list l) = true ↔ ∀ v ∈ l, wfV v = true := by
  rw [show wfV (SVal.list l) = wfList l from rfl]
  induction l with
  | nil => simp [wfList]
  | cons v vs ih => simp [wfList, Bool.and_eq_true, ih]

theorem expectedV_list (l : List SVal) :
    expectedV (SVal.list l) = JVal.list (l.map expectedV) := by
  rw [show expectedV (SVal.list l) = JVal.list (expectedList l) from rfl]
  congr 1
  induction l with
  | nil => rfl
  | cons v vs ih => rw [expectedList, ih, List.map_cons]

/-! ## Parsing each serialized atom -/

/-- `exp` on a serialized well-formed string followed by anything:
recovered verbatim. -/
theorem expF_ser_str (f : Nat) (s : String) (rest : List Char)
    (hne : s.data ≠ []) (hq : ∀ d ∈ s.data, d ≠ chDQ)
    (hb : noBsWs s.data = true) :
    expF (f + 1) (serV (SVal.str s) ++ rest) = PRes.ok (JVal.str s) rest := by
  have hser : serV (SVal.str s) ++ rest
      = chDQ :: (escStr s.data ++ chDQ :: rest) := by
    rw [serV]
    simp [List.append_assoc]
  rw [hser]
  rw [expF_succ]
  rw [if_neg (head_ne_lp chDQ _ (by decide))]
  have hsym := tokSymbol_none_start chDQ (escStr s.data ++ chDQ :: rest)
    (by decide) (by decide)
  have hnum := tokNumber_none_head chDQ (escStr s.data ++ chDQ :: rest)
    (by decide) (by decide)
  have hstr := tokString_at (escStr s.data) rest (escStr_no_dq _ hq)
  rw [stripLineCont_id _ (noBsWs_escStr _ hq hb), unescape_escStr] at hstr
  have htr : truthyJ (JVal.str s) = true := by
    cases hs : s.data with
    | nil => exact absurd hs hne
    | cons c t =>
        have : s = String.mk (c :: t) := by
          cases s with
          | mk d => rw [show (String.mk d).data = d from rfl] at hs; rw [hs]
        rw [this]
        exact truthy_str_mk c t
  simp [tokDispatch, tokNumberP, tokStringP, hsym, hnum, hstr, htr]

/-- `exp` on a serialized canonical non-integer decimal followed by a
stopper: recovered as the same number. -/
theorem expF_ser_num (f i : Nat) (ff rest : List Char)
    (h2 : ff.all isDigitCh = true) (h3 : ff ≠ []) (hcf : canonFrac ff = ff)
    (hr : stopRest rest) :
    expF (f + 1) (serV (SVal.num (JSNum.dec i ff)) ++ rest)
      = PRes.ok (JVal.num (JSNum.dec i ff)) rest := by
  obtain ⟨hne, hall, hval⟩ := repr_spec i
  have hser : serV (SVal.num (JSNum.dec i ff)) ++ rest
      = (Nat.repr i).data ++ '.' :: (ff ++ rest) := by
    rw [serV_num_frac i ff h3]
    simp [List.append_assoc]
  have hnum := tokNumber_sep (Nat.repr i).data ff rest hall h2 h3 hr
  have hv : jsNumOfParts (Nat.repr i).data ff = JSNum.dec i ff := by
    rw [jsNumOfParts, hval, hcf]
  cases hR : (Nat.repr i).data with
  | nil => exact absurd hR hne
  | cons d R =>
      have hd : isDigitCh d = true := by
        rw [List.all_eq_true] at hall
        exact hall d (by rw [hR]; simp)
      have hcons : (Nat.repr i).data ++ '.' :: (ff ++ rest)
          = d :: (R ++ '.' :: (ff ++ rest)) := by rw [hR]; rfl
      rw [hser, hcons]
      rw [expF_succ]
      rw [if_neg (head_ne_lp d _ (digit_ne_lp hd))]
      have hsym := tokSymbol_none_at_num d (R ++ '.' :: (ff ++ rest))
        (Or.inl hd)
      have hnum' : tokNumber (d :: (R ++ '.' :: (ff ++ rest)))
          = some (jsNumOfParts (Nat.repr i).data ff, rest) := by
        rw [← hcons]
        exact hnum
      simp [tokDispatch, tokNumberP, hsym, hnum', hv,
            truthy_num_frac i ff h3]

/-- `exp` on a serialized boolean followed by a stopper: the `t`/`nil`
symbol comes back as a plain string. -/
theorem expF_ser_bool (f : Nat) (b : Bool) (rest : List Char)
    (hr : stopRest rest) :
    expF (f + 1) (serV (SVal.bool b) ++ rest)
      = PRes.ok (JVal.str (if b then "t" else "nil")) rest := by
  cases b
  · have htok := tokSymbol_plain 'n' ['i', 'l'] rest (by decide)
      (by decide) hr
    simp only [List.cons_append, List.nil_append] at htok
    rw [show String.mk ['n', 'i', 'l'] = "nil" from rfl] at htok
    show expF (f + 1) (('n' :: ['i', 'l']) ++ rest) = _
    rw [expF_succ]
    rw [if_neg (by simp)]
    simp [tokDispatch, htok, truthyJ]
  · have htok := tokSymbol_plain 't' [] rest (by decide) (by simp) hr
    simp only [List.cons_append, List.nil_append] at htok
    rw [show String.mk ['t'] = "t" from rfl] at htok
    show expF (f + 1) (('t' :: []) ++ rest) = _
    rw [expF_succ]
    rw [if_neg (by simp)]
    simp [tokDispatch, htok, truthyJ]

/-! ## The round trip, by induction on fuel

Every recursive call in `expF`/`elemsF` decrements the fuel by exactly
one, so a single induction on fuel settles the expression case and the
element-loop case together. -/

theorem rt_main : ∀ fuel : Nat,
    (∀ v : SVal, wfV v = true → ∀ rest : List Char, stopRest rest →
        sizeS v ≤ fuel →
        expF fuel (serV v ++ rest) = PRes.ok (expectedV v) rest) ∧
    (∀ l : List SVal, (∀ v ∈ l, wfV v = true) →
        ∀ (acc : List JVal) (rest : List Char), sizeE l ≤ fuel →
        elemsF fuel acc (serElems l ++ ')' :: rest)
          = PRes.ok (JVal.list (acc ++ l.map expectedV)) rest) := by
  intro fuel
  induction fuel with
  | zero =>
      refine ⟨fun v _ _ _ hs => absurd hs (by have := sizeS_pos v; omega),
              fun l _ _ _ hs => absurd hs (by have := sizeE_ge l; omega)⟩
  | succ f ih =>
      obtain ⟨ihS, ihE⟩ := ih
      constructor
      · intro v hw rest hr hs
        cases v with
        | str s =>
            obtain ⟨hne, hq, hb⟩ := (wfV_str_iff s).mp hw
            rw [expF_ser_str f s rest hne hq hb, expectedV]
        | num n =>
            cases n with
            | nan => exact absurd hw (by rw [wfV]; simp)
            | dec i ff =>
                obtain ⟨h3, h2, hcf⟩ := (wfV_num_iff i ff).mp hw
                rw [expF_ser_num f i ff rest h2 h3 hcf hr, expectedV]
        | bool b => rw [expF_ser_bool f b rest hr, expectedV]
        | list l =>
            have hwl := (wfV_list_iff l).mp hw
            have hser : serV (SVal.list l) ++ rest
                = '(' :: (serElems l ++ ')' :: rest) := by
              rw [serV]
              simp [List.append_assoc]
            rw [hser]
            rw [expF_succ]
            rw [if_pos (show ('(' :: (serElems l ++ ')' :: rest)).head?
                  = some '(' from rfl),
                show ('(' :: (serElems l ++ ')' :: rest)).tail
                  = serElems l ++ ')' :: rest from rfl,
                wsCons_serElems]
            have hsz : sizeE l ≤ f := by
              have hx : sizeS (SVal.list l) = 1 + sizeE l := rfl
              omega
            rw [ihE l hwl [] rest hsz, expectedV_list]
            simp
      · intro l hw acc rest hs
        cases l with
        | nil =>
            have hf1 : 1 ≤ f := by
              have hx : sizeE ([] : List SVal) = 2 := rfl
              omega
            show elemsF (f + 1) acc (')' :: rest) = _
            simp [elemsF_succ, expF_rparen f rest hf1]
        | cons v vs =>
            have hA := Nat.le_max_left (sizeS v) (sizeE vs)
            have hB := Nat.le_max_right (sizeS v) (sizeE vs)
            have hx : sizeE (v :: vs) = 1 + max (sizeS v) (sizeE vs) := rfl
            have hsv : sizeS v ≤ f := by omega
            have hsvs : sizeE vs ≤ f := by omega
            cases vs with
            | nil =>
                show elemsF (f + 1) acc (serV v ++ ')' :: rest) = _
                have hexp := ihS v (hw v (by simp)) (')' :: rest)
                  (Or.inr rfl) hsv
                simp only [elemsF_succ, hexp,
                  wsCons_keep ')' rest (by decide) (by decide)]
                rw [show (')' :: rest)
                    = serElems ([] : List SVal) ++ ')' :: rest from rfl,
                  ihE [] (by simp) (acc ++ [expectedV v]) rest
                    (by have h0 : sizeE ([] : List SVal) = 2 := rfl; omega)]
                simp
            | cons v2 vs' =>
                have hse : serElems (v :: v2 :: vs') ++ ')' :: rest
                    = serV v
                      ++ ' ' :: (serElems (v2 :: vs') ++ ')' :: rest) := by
                  rw [show serElems (v :: v2 :: vs')
                      = serV v ++ ' ' :: serElems (v2 :: vs') from rfl]
                  simp [List.append_assoc]
                rw [hse]
                have hexp := ihS v (hw v (by simp))
                  (' ' :: (serElems (v2 :: vs') ++ ')' :: rest))
                  (Or.inl rfl) hsv
                simp only [elemsF_succ, hexp, wsCons_space, wsCons_serElems]
                rw [ihE (v2 :: vs') (fun u hu => hw u (by simp [hu]))
                  (acc ++ [expectedV v]) rest hsvs]
                simp

/-- Claim C5 (amended): for values built from nested arrays, non-empty
quote-free backslash-space-free strings, booleans, and canonical
positive decimals with a fractional part, parsing the serializer's
output reproduces the expected value (arrays as lists, strings as
strings, numbers as numbers, booleans as the symbols `t`/`nil`, which
parse as plain strings).  The non-emptiness and non-zero-value
restrictions matter because the element loop and the `||` chain gate on
JS truthiness and drop falsy parsed values. -/
theorem C5_roundtrip_amended (v : SVal) (hw : wfV v = true) :
    parse (String.mk (serV v)) = PRes.ok (expectedV v) [] := by
  have hb := sizeS_le_len v
  have h := (rt_main ((serV v).length + 1)).1 v hw [] trivial (by omega)
  rw [List.append_nil] at h
  show expF ((serV v).length + 1) (serV v) = _
  exact h

/-- Witness for the amended C5 at the nested value
`("a" 1.5 (t nil))`. -/
theorem C5_roundtrip_amended_witness :
    parse (String.mk (serV (SVal.list [SVal.str "a",
        SVal.num (JSNum.dec 1 ['5']),
        SVal.list [SVal.bool true, SVal.bool false]])))
      = PRes.ok (expectedV (SVal.list [SVal.str "a",
          SVal.num (JSNum.dec 1 ['5']),
          SVal.list [SVal.bool true, SVal.bool false]])) [] :=
  C5_roundtrip_amended _ (by decide)

/-- Claim C5 counterexample: the integer `5` serializes to `"5"`, which
the parser does not parse at all (the grammar has no bare-integer
production), so `parse(sexp(5))` does not reproduce the number 5. -/
theorem C5_roundtrip_counterexample :
    parse (String.mk (serV (SVal.num (JSNum.dec 5 []))))
        = PRes.stop none ['5'] ∧
    PRes.stop none ['5'] ≠ PRes.ok (expectedV (SVal.num (JSNum.dec 5 []))) [] :=
  ⟨rfl, fun h => PRes.noConfusion h⟩

/-! ## Errors of the metadata extractor and the backend

One taxonomy for the whole embedding: `synErr` is the `SyntaxError` class
(of either parser), `typeErr` a JS `TypeError` raised by calling a string
method on a non-string, and the remaining constructors are the backend's
`InputError`, `PermissionsError`, `LoadError`, storage-layer faults and
plain `Error`s. -/

inductive Err : Type
  | synErr (msg : String)
  | typeErr (msg : String)
  | inputErr (msg : String)
  | permErr (msg : String)
  | loadErr (msg : String)
  | storageErr (msg : String)
  | genericErr (msg : String)
deriving DecidableEq

/-! ## Header scanning (`getHeaders` in `src/lib/packageParser.js`)

The header regex
`^;;+[ \t]+(?:@\(#\))?[ \t]*\$?([a-z\-]+)[ \t]*:[ \t]+(.*)` runs with the
`img` flags over the whole text via `util.scan` (`src/lib/helpers.js`,
which iterates `String.replace` matches in document order).  With the `m`
flag every match starts at a line start and `(.*)` stops at the line end,
so the scan is modelled line by line; on these patterns the JS engine's
greedy matching is deterministic. -/

/-- Split on a separator character (`String.prototype.split` with a
one-character separator): always at least one piece, empty pieces kept. -/
def splitCh (sep : Char) : List Char → List (List Char)
  | [] => [[]]
  | c :: r =>
      match splitCh sep r with
      | [] => [[c]]
      | l :: ls => if c = sep then [] :: l :: ls else (c :: l) :: ls

/-- The lines of a string, i.e. the pieces between newlines. -/
def linesOf (s : String) : List String := (splitCh chNL s.data).map String.mk

/-- ASCII lowercasing of one character (`String.prototype.toLowerCase`
restricted to the ASCII identifiers this code feeds it). -/
def lowerCh (c : Char) : Char :=
  if 65 ≤ c.toNat && c.toNat ≤ 90 then Char.ofNat (c.toNat + 32) else c

/-- `String.prototype.toLowerCase` on ASCII text. -/
def jsToLower (s : String) : String := String.mk (s.data.map lowerCh)

/-- `[ \t]`. -/
def isSpTab (c : Char) : Bool := c = ' ' || c = '\t'

/-- `[a-z\-]` under the case-insensitive flag. -/
def isNameCh (c : Char) : Bool :=
  (97 ≤ c.toNat && c.toNat ≤ 122) || (65 ≤ c.toNat && c.toNat ≤ 90) ||
    c = '-'

/-- Match the header pattern against one line, returning the name capture
and the verbatim value capture. -/
def matchHeader (s : List Char) : Option (String × String) :=
  let semis := s.takeWhile (· = ';')
  if semis.length < 2 then none else
  let r1 := s.drop semis.length
  let sp1 := r1.takeWhile isSpTab
  if sp1 = [] then none else
  let r2 := r1.drop sp1.length
  let r3 := match r2 with
    | '@' :: '(' :: '#' :: ')' :: t => t
    | _ => r2
  let r4 := r3.drop (r3.takeWhile isSpTab).length
  let r5 := match r4 with
    | '$' :: t => t
    | _ => r4
  let name := r5.takeWhile isNameCh
  if name = [] then none else
  let r6 := r5.drop name.length
  let r7 := r6.drop (r6.takeWhile isSpTab).length
  match r7 with
  | ':' :: r8 =>
      let sp4 := r8.takeWhile isSpTab
      if sp4 = [] then none
      else some (String.mk name, String.mk (r8.drop sp4.length))
  | _ => none

/-- Insert-or-overwrite on the headers object: an existing key keeps its
position but gets the new value (JS property assignment). -/
def upsert : List (String × String) → String → String → List (String × String)
  | [], k, v => [(k, v)]
  | (k0, v0) :: rest, k, v =>
      if k0 = k then (k0, v) :: rest else (k0, v0) :: upsert rest k v

/-- Property lookup on the headers object. -/
def hget (hs : List (String × String)) (k : String) : Option String :=
  match hs.find? (fun p => p.1 = k) with
  | some p => some p.2
  | none => none

/-- The body of `getHeaders`' scan callback on one line:
`if (val !== "") headers[name.toLowerCase()] = val`. -/
def hstep (hs : List (String × String)) (line : String) :
    List (String × String) :=
  match matchHeader line.data with
  | some (name, val) =>
      if val ≠ "" then upsert hs (jsToLower name) val else hs
  | none => hs

/-- The scan callback applied to the matches in line order. -/
def getHeadersLines (lines : List String) : List (String × String) :=
  lines.foldl hstep []

/-- `getHeaders`: scan every (line-anchored) match of the header regex in
document order. -/
def getHeaders (elisp : String) : List (String × String) :=
  getHeadersLines (linesOf elisp)

/-- Writing a key always leaves that key at the written value. -/
theorem hget_upsert (hs : List (String × String)) (k v : String) :
    hget (upsert hs k v) k = some v := by
  induction hs with
  | nil => simp [upsert, hget]
  | cons p rest ih =>
      obtain ⟨k0, v0⟩ := p
      by_cases h : k0 = k
      · simp [upsert, h, hget]
      · simp only [upsert, if_neg h]
        simpa [hget, List.find?, h] using ih

/-- One more line folds one more scan step. -/
theorem getHeadersLines_append_one (pre : List String) (line : String) :
    getHeadersLines (pre ++ [line])
      = (match matchHeader line.data with
        | some (name, val) =>
            if val ≠ "" then upsert (getHeadersLines pre) (jsToLower name) val
            else getHeadersLines pre
        | none => getHeadersLines pre) := by
  simp [getHeadersLines, List.foldl_append, hstep]

/-- Writing one key leaves every other key's value alone. -/
theorem hget_upsert_ne (hs : List (String × String)) (k v n : String)
    (h : k ≠ n) : hget (upsert hs k v) n = hget hs n := by
  induction hs with
  | nil => simp [upsert, hget, List.find?, h]
  | cons p rest ih =>
      obtain ⟨k0, v0⟩ := p
      by_cases h0 : k0 = k
      · subst h0
        simp [upsert, hget, List.find?, h]
      · simp only [upsert, if_neg h0]
        by_cases hn : k0 = n
        · simp [hget, List.find?, hn]
        · simpa [hget, List.find?, hn] using ih

/-- Lines that contain no effective (non-empty-valued) match for a key
leave that key's entry untouched, whatever else they do to the
mapping. -/
theorem hget_foldl_skip (post : List String)
    (acc : List (String × String)) (n : String)
    (h : ∀ l ∈ post, ∀ n2 v2, matchHeader l.data = some (n2, v2) →
      v2 ≠ "" → jsToLower n2 ≠ n) :
    hget (post.foldl hstep acc) n = hget acc n := by
  induction post generalizing acc with
  | nil => rfl
  | cons l ls ih =>
      rw [List.foldl_cons]
      rw [ih _ (fun l2 hl2 => h l2 (by simp [hl2]))]
      unfold hstep
      cases hm : matchHeader l.data with
      | none => rfl
      | some p =>
          obtain ⟨n2, v2⟩ := p
          show hget (if v2 ≠ "" then upsert acc (jsToLower n2) v2 else acc) n
              = hget acc n
          by_cases hv : v2 = ""
          · rw [if_neg (by simp [hv])]
          · rw [if_pos (by simpa using hv)]
            exact hget_upsert_ne _ _ _ _ (h l (by simp) n2 v2 hm hv)

/-- Claim C6 (corrected): in any text, a header line whose lowercased
name has no later effective (non-empty-valued) occurrence determines the
mapping's entry for that name — so of two same-named header lines the
LAST one wins, whatever lines (code, markers, other headers) surround
them — and a header line with an empty value after the colon contributes
nothing to the mapping. -/
theorem C6_header_mapping (text : String) (pre post : List String)
    (line : String) :
    (∀ n v, matchHeader line.data = some (n, v) → v ≠ "" →
        linesOf text = pre ++ line :: post →
        (∀ l ∈ post, ∀ n2 v2, matchHeader l.data = some (n2, v2) →
          v2 ≠ "" → jsToLower n2 ≠ jsToLower n) →
        hget (getHeaders text) (jsToLower n) = some v) ∧
    (∀ n, matchHeader line.data = some (n, "") →
        linesOf text = pre ++ line :: post →
        getHeaders text = getHeadersLines (pre ++ post)) := by
  constructor
  · intro n v hm hv hsplit hlast
    rw [getHeaders, hsplit,
        show pre ++ line :: post = (pre ++ [line]) ++ post by simp]
    show hget (((pre ++ [line]) ++ post).foldl hstep []) (jsToLower n)
        = some v
    rw [List.foldl_append]
    rw [hget_foldl_skip post _ _ hlast]
    show hget (getHeadersLines (pre ++ [line])) (jsToLower n) = some v
    rw [getHeadersLines_append_one, hm]
    show hget (if v ≠ "" then upsert (getHeadersLines pre) (jsToLower n) v
        else getHeadersLines pre) (jsToLower n) = some v
    rw [if_pos hv]
    exact hget_upsert _ _ _
  · intro n hm hsplit
    rw [getHeaders, hsplit,
        show pre ++ line :: post = (pre ++ [line]) ++ post by simp]
    show (((pre ++ [line]) ++ post).foldl hstep [])
        = getHeadersLines (pre ++ post)
    rw [List.foldl_append, List.foldl_append]
    show post.foldl hstep (hstep (pre.foldl hstep []) line)
        = getHeadersLines (pre ++ post)
    rw [show hstep (pre.foldl hstep []) line = pre.foldl hstep [] by
      unfold hstep; rw [hm]; simp]
    show post.foldl hstep (pre.foldl hstep []) = getHeadersLines (pre ++ post)
    rw [getHeadersLines, List.foldl_append]

/-- Witness for C6 on a text whose duplicated header is followed by
further (non-header and differently-named header) lines: the second
`Version` value wins, and an empty-valued header line adds nothing. -/
theorem C6_header_mapping_witness :
    hget (getHeaders
        ";; Version: 1.0\n;; Version: 2.0\n;; Author: a\n(provide x)")
        (jsToLower "Version") = some "2.0" ∧
    getHeaders ";; A: 1\n;; B: \n;; C: 2"
      = getHeadersLines [";; A: 1", ";; C: 2"] :=
  ⟨(C6_header_mapping
      ";; Version: 1.0\n;; Version: 2.0\n;; Author: a\n(provide x)"
      [";; Version: 1.0"] [";; Author: a", "(provide x)"]
      ";; Version: 2.0").1 "Version" "2.0"
      (by decide) (by decide) (by decide)
      (by
        intro l hl n2 v2 hm hv2
        rcases List.mem_cons.mp hl with h | h
        · subst h
          rw [show matchHeader (";; Author: a" : String).data
              = some ("Author", "a") from rfl] at hm
          injection hm with hp
          injection hp with hn2 hv2x
          subst hn2
          decide
        · rcases List.mem_singleton.mp h with rfl
          exact Option.noConfusion hm),
   (C6_header_mapping ";; A: 1\n;; B: \n;; C: 2" [";; A: 1"] [";; C: 2"]
      ";; B: ").2 "B" (by decide) (by decide)⟩

/-- Claim C6 counterexample: with two non-empty `Version` header lines
the mapping holds the second line's value `"2.0"`, not the first
occurrence's `"1.0"` as the claim states. -/
theorem C6_header_first_wins_counterexample :
    hget (getHeaders ";; Version: 1.0\n;; Version: 2.0") "version"
        = some "2.0" ∧
    (some "2.0" : Option String) ≠ some "1.0" := by
  exact ⟨by decide, by decide⟩

/-! ## Version parsing (`parseVersion` in `src/lib/packageParser.js`)

Each dot-separated segment must match `/^\d+$/m`; with the `m` flag that
means some line of the segment is a non-empty digit run.  Passing
segments go through `Number(s)`. -/

/-- A segment passes `/^\d+$/m`. -/
def segMatch (s : List Char) : Bool :=
  (splitCh chNL s).any (fun l => !l.isEmpty && l.all isDigitCh)

/-- `parseVersion`: split on dots, check every segment, convert with
`Number`. -/
def parseVersion (str : String) : Except Err (List JSNum) :=
  let segs := splitCh '.' str.data
  if segs.all segMatch then
    Except.ok (segs.map jsNumberOfString)
  else
    Except.error (Err.synErr
      ("Version \x22" ++ str ++
        "\x22 must contain only numbers separated by dots."))

/-! ## JS value helpers for `parseDeclaration` -/

/-- JS property read `v[i]` on a parse result: arrays index, strings
index characters (as one-character strings), numbers give `undefined`. -/
def jvalAt (v : JVal) (i : Nat) : Option JVal :=
  match v with
  | JVal.list l => l.get? i
  | JVal.str s => (s.data.get? i).map (fun c => JVal.str (String.mk [c]))
  | JVal.num _ => none

/-- JS `!x`, with `none` standing for `undefined` (falsy). -/
def jsNot (v : Option JVal) : Bool :=
  match v with
  | none => true
  | some x => !truthyJ x

/-- JS strict equality between a boolean and a string: always false (the
operands have different types and `===` never coerces). -/
def jsEqBoolStr (_ : Bool) (_ : String) : Bool := false

mutual

/-- JS string coercion of a parse result (used by `==` against a string
literal): arrays stringify to their comma-joined elements. -/
def jvalToStr : JVal → String
  | JVal.str s => s
  | JVal.num n => n.toStr
  | JVal.list l => jvalsToStr l

/-- Comma-joined element stringification (`Array.prototype.toString`). -/
def jvalsToStr : List JVal → String
  | [] => ""
  | [v] => jvalToStr v
  | v :: v2 :: vs => jvalToStr v ++ "," ++ jvalsToStr (v2 :: vs)

end

/-- JS loose equality `v == s` against a non-numeric string literal:
`undefined` never equals it, strings compare directly, numbers coerce the
string to `NaN` (never equal), arrays coerce themselves to a string. -/
def jsLooseEqStr (v : Option JVal) (s : String) : Bool :=
  match v with
  | none => false
  | some (JVal.str t) => t = s
  | some (JVal.num _) => false
  | some (JVal.list l) => jvalsToStr l = s

/-- `parseVersion(x)` where `x` is a property read: calling `.split` on
anything but a string throws a `TypeError`. -/
def parseVersionAt (v : Option JVal) : Except Err (List JSNum) :=
  match v with
  | some (JVal.str s) => parseVersion s
  | some _ => Except.error (Err.typeErr "str.split is not a function")
  | none =>
      Except.error (Err.typeErr "Cannot read property split of undefined")

/-! ## Typed s-expression parsing (`parseSexp` with `Array`) -/

mutual

/-- A rough `sys.inspect` rendering used only inside error messages. -/
def inspectJVal : JVal → String
  | JVal.str s => String.mk (chSQ :: (s.data ++ [chSQ]))
  | JVal.num n => n.toStr
  | JVal.list l => "[ " ++ inspectJVals l ++ " ]"

/-- Comma-joined inspection of list elements. -/
def inspectJVals : List JVal → String
  | [] => ""
  | [v] => inspectJVal v
  | v :: v2 :: vs => inspectJVal v ++ ", " ++ inspectJVals (v2 :: vs)

end

/-- `parseSexp(str, Array)`: parse one s-expression, require an array,
re-tag parser `SyntaxError`s as the package parser's own class. -/
def parseSexpList (str : String) : Except Err (List JVal) :=
  match parse str with
  | PRes.ok (JVal.list l) _ => Except.ok l
  | PRes.ok v _ =>
      Except.error (Err.synErr
        ("Expected " ++ inspectJVal v ++ " to be of type Array"))
  | PRes.stop (some v) _ =>
      Except.error (Err.synErr
        ("Expected " ++ inspectJVal v ++ " to be of type Array"))
  | PRes.stop none _ =>
      Except.error (Err.synErr "Expected null to be of type Array")
  | PRes.synErr m => Except.error (Err.synErr m)

/-! ## Package metadata records -/

/-- The metadata object produced by `parseElisp` / `parseDeclaration`.
Fields the respective path does not set (`commentary`/`headers` for the
declaration path) are `none`/empty, standing for absent JS properties. -/
structure Meta where
  name_ : String
  name : String
  description : Option JVal
  commentary : Option String
  headers : List (String × String)
  requires : List (Option JVal × List JSNum)
  version : List JSNum
  type_ : String

/-- The `_.map` body over the requires pairs:
`[require[0], parseVersion(require[1])]`. -/
def mapRequires : List JVal → Except Err (List (Option JVal × List JSNum))
  | [] => Except.ok []
  | r :: rs =>
      match parseVersionAt (jvalAt r 1) with
      | Except.error e => Except.error e
      | Except.ok ver =>
          match mapRequires rs with
          | Except.error e => Except.error e
          | Except.ok rest => Except.ok ((jvalAt r 0, ver) :: rest)

/-- `_.map`'s iteration targets: arrays iterate elements, strings iterate
characters, anything else iterates nothing. -/
def jmapTargets (v : Option JVal) : List JVal :=
  match v with
  | some (JVal.list l) => l
  | some (JVal.str s) => s.data.map (fun c => JVal.str (String.mk [c]))
  | _ => []

/-- The `if (sexp[4]) { ... }` block of `parseDeclaration`. -/
def parseRequiresDecl (v4 : Option JVal) :
    Except Err (List (Option JVal × List JSNum)) :=
  match v4 with
  | none => Except.ok []
  | some v =>
      if truthyJ v then
        if !(jsLooseEqStr (jvalAt v 0) "quote") then
          Except.error (Err.synErr "Requires must be quoted")
        else
          mapRequires (jmapTargets (jvalAt v 1))
      else Except.ok []

/-- `parseDeclaration`: parse the `<name>-pkg.el` contents as one
s-expression list and read the positional fields.  The head-symbol check
is written `if (!sexp[0] === "define-package")` in the source; the unary
`!` binds first, so a boolean is compared strictly against a string and
the condition is always false — the `SyntaxError` can never be raised,
which the embedding keeps faithfully via `jsEqBoolStr`. -/
def parseDeclaration (elisp : String) : Except Err Meta :=
  match parseSexpList elisp with
  | Except.error e => Except.error e
  | Except.ok sexp =>
      if jsEqBoolStr (jsNot (sexp.get? 0)) "define-package" then
        Except.error (Err.synErr "Expected a call to define-package")
      else
        match parseVersionAt (sexp.get? 2) with
        | Except.error e => Except.error e
        | Except.ok version =>
            match parseRequiresDecl (sexp.get? 4) with
            | Except.error e => Except.error e
            | Except.ok requires =>
                match sexp.get? 1 with
                | some (JVal.str name) =>
                    Except.ok
                      { name_ := jsToLower name, name := name,
                        description := sexp.get? 3, commentary := none,
                        headers := [], requires := requires,
                        version := version, type_ := "tar" }
                | _ =>
                    Except.error
                      (Err.typeErr "name.toLowerCase is not a function")

/-- Claim C1 (code_bug): the head-symbol check of `parseDeclaration` is
written `if (!sexp[0] === "define-package")`; the unary `!` binds before
`===`, so a boolean is compared strictly against a string, the condition
is false for every parsed head element, and the SyntaxError "Expected a
call to define-package" is unreachable.  A `<name>-pkg.el` declaration
whose head symbol is `frob` rather than `define-package` is accepted and
yields the same metadata as the corresponding `define-package` call,
contradicting the claim that extraction fails for such archives. -/
theorem C1_define_package_check_unreachable :
    (∀ x : Option JVal, jsEqBoolStr (jsNot x) "define-package" = false)
    ∧ parseDeclaration "(frob \x22foo\x22 \x221.0\x22)"
        = Except.ok (Meta.mk "foo" "foo" none none [] []
            [JSNum.dec 1 [], JSNum.dec 0 []] "tar")
    ∧ parseDeclaration "(define-package \x22foo\x22 \x221.0\x22)"
        = Except.ok (Meta.mk "foo" "foo" none none [] []
            [JSNum.dec 1 [], JSNum.dec 0 []] "tar") :=
  ⟨fun _ => rfl, rfl, rfl⟩

/-! ## The backing store (`src/lib/backend.js`)

`src/lib/backend.js` holds two concatenated revisions of the module; the
later one (whose `Backend` constructor sets up the `packages`,
`packageVersions` and `users` collections with their unique indexes) is
the revision the claims cite and the one embedded here.  MongoDB is
modelled at the driver boundary: a collection is a list of documents in
insertion order, `findOne` returns the first matching document, `update`
without `multi` updates the first matching document, a unique index makes
a duplicate insert fail with the server's duplicate-key error (surfaced
through `checkErrorCb` as a plain `Error`, represented by a fixed string),
and `find` with a `sort` and `limit: 1` yields the least document under
the requested order (ties keep insertion order).  Documents carry the
fields the modelled operations read; package version documents are the
parsed metadata (`Meta`) plus the `_version` index field. -/

/-- A document of the `packages` collection, as inserted by
`saveNewPackage_`: `{_name, name, created, owners}`. -/
structure PkgDoc where
  name_ : String
  name : String
  owners : List String
  created : Nat
deriving DecidableEq

/-- A document of the `packageVersions` collection: the parsed package
metadata with the `_version` field added by `savePackage_`. -/
structure VDoc where
  meta : Meta
  version_ : List (Nat × JSNum)

/-- A document of the `users` collection (the fields read by the
modelled operations; the password fields are never read here). -/
structure UserDoc where
  name_ : String
  name : String
  token : String
  packages : List String
deriving DecidableEq

/-- The three collections of the backing store. -/
structure St where
  packages : List PkgDoc
  packageVersions : List VDoc
  users : List UserDoc

/-- `versionIx_`: turn a version array into the index object
`{0: v0, 1: v1, ...}` (Mongo treats raw arrays as sets in indexes). -/
def versionIx_ (version : List JSNum) : List (Nat × JSNum) :=
  version.enum

/-- The duplicate-key `Error` the MongoDB server reports when an insert
violates the unique `(_name, _version)` index and `checkErrorCb` passes
along; the exact text is server-generated, so a fixed representative
string stands for it — what matters below is that it is a storage-layer
error, not one of the module's user-facing error classes. -/
def dupKeyErr : Err := Err.storageErr "E11000 duplicate key error"

/-- `packages_.findOne({_name: key}, ['owners'], cb)`. -/
def findPkg (st : St) (key : String) : Option PkgDoc :=
  st.packages.find? (fun p => p.name_ = key)

/-- Whether a `(_name, _version)` pair is already present (the unique
index of `packageVersions`). -/
def hasVersion (l : List VDoc) (key : String) (ix : List (Nat × JSNum)) :
    Bool :=
  l.any (fun w => decide (w.meta.name_ = key) && decide (w.version_ = ix))

/-- `packageVersions_.insert(pkg, checkErrorCb(cb))` under the unique
`(_name, _version)` index: a duplicate fails with the server's
duplicate-key error and stores nothing. -/
def insertVersion (st : St) (v : VDoc) : Except Err St :=
  if hasVersion st.packageVersions v.meta.name_ v.version_ then
    Except.error dupKeyErr
  else
    Except.ok { st with packageVersions := st.packageVersions ++ [v] }

/-- `users_.update({_name: key}, {$push: {packages: pname}})`: push onto
the first matching user document, if any. -/
def pushPackage : List UserDoc → String → String → List UserDoc
  | [], _, _ => []
  | u :: us, key, pname =>
      if u.name_ = key then
        { u with packages := u.packages ++ [pname] } :: us
      else u :: pushPackage us key pname

/-- `saveNewPackage_`: insert the package document
`{_name, name, created: new Date(), owners: [owner._name]}` and push the
package onto the owner's user document (`now` stands for the insertion
date). -/
def saveNewPackage_ (now : Nat) (st : St) (pkg : Meta) (owner : UserDoc) :
    St :=
  { st with
    packages :=
      st.packages ++ [PkgDoc.mk pkg.name_ pkg.name [owner.name_] now],
    users := pushPackage st.users owner.name_ pkg.name_ }

/-- `savePackage_`: look the package up by `_name`; a new name goes
through `saveNewPackage_`, an existing one requires
`_.include(oldPkg.owners, user._name)` and otherwise throws
`PermissionsError('User "' + user.name + '" does not own package "' +
pkg.name + '"')`; then insert the version document with
`pkg._version = versionIx_(pkg.version)`. -/
def savePackage_ (now : Nat) (st : St) (pkg : Meta) (user : UserDoc) :
    Except Err Unit × St :=
  match findPkg st pkg.name_ with
  | none =>
      let st1 := saveNewPackage_ now st pkg user
      match insertVersion st1 (VDoc.mk pkg (versionIx_ pkg.version)) with
      | Except.error e => (Except.error e, st1)
      | Except.ok st2 => (Except.ok (), st2)
  | some oldPkg =>
      if oldPkg.owners.contains user.name_ then
        match insertVersion st (VDoc.mk pkg (versionIx_ pkg.version)) with
        | Except.error e => (Except.error e, st)
        | Except.ok st2 => (Except.ok (), st2)
      else
        (Except.error (Err.permErr
          ("User \x22" ++ user.name ++ "\x22 does not own package \x22"
            ++ pkg.name ++ "\x22")), st)

/-- The value `packageVersions_.find(selector, fields, options,
checkErrorCb(cb))` passes to the callback at the driver boundary: a
`Cursor` over the query's result set, not a document and not `null` —
the module's own `stream` helper consumes exactly such a cursor with
`nextObject`.  A cursor is an object (truthy even over an empty result
set) and exposes no `version` property. -/
structure Cursor where
  docs : List VDoc

/-- The cursor `handleLoadError`'s query
`find({_name: name.toLowerCase()}, ['version'], {limit: 1, sort:
{version: 1}}, cb)` hands its callback. -/
def findVersionsCursor (st : St) (key : String) : Cursor :=
  Cursor.mk (st.packageVersions.filter (fun w => w.meta.name_ = key))

/-- JS truthiness of a cursor: objects are always truthy. -/
def truthyCursor (_ : Cursor) : Bool := true

/-- The property read `pkg.version` on the callback value: a cursor has
no `version` property, so the read yields `undefined`. -/
def cursorVersion (_ : Cursor) : Option (List JSNum) := none

/-- `version.join(".")`. -/
def joinVersion (v : List JSNum) : String :=
  String.intercalate "." (v.map JSNum.toStr)

/-- `x.join(".")` on a possibly-`undefined` value: calling a method on
`undefined` throws a `TypeError`, which `step` catches and passes to the
callback. -/
def jsJoinDot : Option (List JSNum) → Except Err String
  | none =>
      Except.error
        (Err.typeErr "Cannot call method \x27join\x27 of undefined")
  | some v => Except.ok (joinVersion v)

/-- `handleLoadError`, written with both `LoadError` branches as the
source has them: `if (!pkg)` throws the does-not-exist error, the else
branch builds the missing-version message from `version.join(".")` and
`pkg.version.join(".")`.  Because `pkg` is a cursor, `!pkg` is never
true, and `pkg.version` is `undefined`, so the message expression throws
a `TypeError` before the second `LoadError` can be constructed: the
callback receives that `TypeError` in every case. -/
def handleLoadError (st : St) (name : String) (version : List JSNum) :
    Err :=
  let pkg := findVersionsCursor st (jsToLower name)
  if !truthyCursor pkg then
    Err.loadErr ("Package " ++ name ++ " does not exist")
  else
    match jsJoinDot (cursorVersion pkg) with
    | Except.error e => e
    | Except.ok recent =>
        Err.loadErr ("Package " ++ name ++ " doesn\x27t have version "
          ++ joinVersion version ++ ". Most recent version is "
          ++ recent ++ "\n")

/-- `loadUserWithToken`: find the user by lowercased name;
`if (!user || user.token !== token) return null; return user` — both
mismatch cases return `null`, no error object is created. -/
def loadUserWithToken (st : St) (name token : String) : Option UserDoc :=
  match st.users.find? (fun u => u.name_ = jsToLower name) with
  | none => none
  | some u => if u.token ≠ token then none else some u

/-- The call `Backend.prototype.savePackage` dispatches to, with the
arguments it actually forwards: the `el` branch is
`this.saveElisp(data.toString('utf8'), callback)`, so the uploader is
absent from the forwarded arguments (the callback sits in `saveElisp`'s
`user` parameter slot and the downstream behaviour is a function of this
descriptor alone); the `tar` branch forwards the uploader. -/
inductive SPCall : Type
  | elisp (elisp : String)
  | tarball (data : String) (user : UserDoc)
  | badType (e : Err)
deriving DecidableEq

/-- `savePackage(data, user, type, callback)`: dispatch on the type
string. -/
def savePackage (data : String) (user : UserDoc) (type_ : String) :
    SPCall :=
  if type_ = "el" then SPCall.elisp data
  else if type_ = "tar" then SPCall.tarball data user
  else SPCall.badType (Err.genericErr ("Unknown filetype: " ++ type_))

/-- `find?` skips a prefix in which nothing satisfies the predicate. -/
theorem find_skip {α : Type} (p : α → Bool) (l1 l2 : List α)
    (h : l1.find? p = none) : (l1 ++ l2).find? p = l2.find? p := by
  induction l1 with
  | nil => simp
  | cons a t ih =>
      cases hpa : p a with
      | false =>
          rw [List.find?_cons_of_neg _ (by simp [hpa])] at h
          rw [List.cons_append, List.find?_cons_of_neg _ (by simp [hpa])]
          exact ih h
      | true => rw [List.find?_cons_of_pos _ hpa] at h; cases h

/-- Concrete test fixtures for the backend theorems. -/
def pkgFoo : Meta :=
  Meta.mk "foo" "foo" none none [] [] [JSNum.dec 1 [], JSNum.dec 0 []] "tar"

def userAlice : UserDoc := UserDoc.mk "alice" "Alice" "tok-alice" []

def userBob : UserDoc := UserDoc.mk "bob" "Bob" "tok-bob" []

/-- Claim C2 (amended): for a package name not yet present and a version
pair not yet stored, the first `savePackage_` succeeds and repeating it
fails — but the failure is the storage layer's duplicate-key error from
the unique `(_name, _version)` index, not an `InputError` with the
message "version already exists" (no such error exists in the module). -/
theorem C2_duplicate_version_storage_error
    (now now2 : Nat) (st : St) (pkg : Meta) (u : UserDoc)
    (hnew : findPkg st pkg.name_ = none)
    (hnov : hasVersion st.packageVersions pkg.name_ (versionIx_ pkg.version)
      = false) :
    (savePackage_ now st pkg u).1 = Except.ok ()
    ∧ (savePackage_ now2 (savePackage_ now st pkg u).2 pkg u).1
        = Except.error dupKeyErr
    ∧ dupKeyErr ≠ Err.inputErr "version already exists" := by
  have h1 : savePackage_ now st pkg u
      = (Except.ok (),
         { packages :=
             st.packages ++ [PkgDoc.mk pkg.name_ pkg.name [u.name_] now],
           packageVersions :=
             st.packageVersions ++ [VDoc.mk pkg (versionIx_ pkg.version)],
           users := pushPackage st.users u.name_ pkg.name_ }) := by
    unfold savePackage_
    rw [hnew]
    dsimp only
    unfold saveNewPackage_ insertVersion
    dsimp only
    rw [if_neg (by simp [hnov])]
  refine ⟨by rw [h1], ?_, by decide⟩
  rw [h1]
  unfold savePackage_
  have h2 : findPkg
      { packages :=
          st.packages ++ [PkgDoc.mk pkg.name_ pkg.name [u.name_] now],
        packageVersions :=
          st.packageVersions ++ [VDoc.mk pkg (versionIx_ pkg.version)],
        users := pushPackage st.users u.name_ pkg.name_ }
      pkg.name_ = some (PkgDoc.mk pkg.name_ pkg.name [u.name_] now) := by
    unfold findPkg at hnew ⊢
    rw [find_skip _ _ _ hnew]
    simp [List.find?]
  rw [h2]
  dsimp only
  rw [if_pos (by simp)]
  unfold insertVersion
  have h3 : hasVersion
      (st.packageVersions ++ [VDoc.mk pkg (versionIx_ pkg.version)])
      pkg.name_ (versionIx_ pkg.version) = true := by
    unfold hasVersion
    rw [List.any_append]
    simp
  rw [if_pos h3]

/-- Witness for C2 at a fresh store, `foo` version `1.0`, owner Alice. -/
theorem C2_duplicate_version_storage_error_witness :
    (savePackage_ 0 (St.mk [] [] []) pkgFoo userAlice).1 = Except.ok ()
    ∧ (savePackage_ 1 (savePackage_ 0 (St.mk [] [] []) pkgFoo userAlice).2
        pkgFoo userAlice).1 = Except.error dupKeyErr
    ∧ dupKeyErr ≠ Err.inputErr "version already exists" :=
  C2_duplicate_version_storage_error 0 1 (St.mk [] [] []) pkgFoo userAlice
    rfl rfl

/-- Counterexample to C2 as stated: the second identical save of `foo`
`1.0` fails with the duplicate-key storage error, which is not the
claimed `InputError "version already exists"`. -/
theorem C2_duplicate_version_counterexample :
    (savePackage_ 1 (savePackage_ 0 (St.mk [] [] []) pkgFoo userAlice).2
        pkgFoo userAlice).1
      = Except.error (Err.storageErr "E11000 duplicate key error")
    ∧ Err.storageErr "E11000 duplicate key error"
        ≠ Err.inputErr "version already exists" :=
  ⟨rfl, by decide⟩

/-- Claim C3: saving a version of an existing package as a user whose
key is not among the package's owners fails with a `PermissionsError`
naming the user and the package, and leaves the store unchanged (no
version document is inserted). -/
theorem C3_ownership_gate
    (now : Nat) (st : St) (pkg : Meta) (u : UserDoc) (old : PkgDoc)
    (hfind : findPkg st pkg.name_ = some old)
    (hown : old.owners.contains u.name_ = false) :
    savePackage_ now st pkg u
      = (Except.error (Err.permErr ("User \x22" ++ u.name
          ++ "\x22 does not own package \x22" ++ pkg.name ++ "\x22")),
         st) := by
  unfold savePackage_
  rw [hfind]
  dsimp only
  rw [if_neg (by rw [hown]; decide)]

/-- Witness for C3: Alice uploading to Bob's package `foo`. -/
theorem C3_ownership_gate_witness :
    savePackage_ 5 (St.mk [PkgDoc.mk "foo" "foo" ["bob"] 0] [] [userBob])
        pkgFoo userAlice
      = (Except.error (Err.permErr ("User \x22" ++ userAlice.name
          ++ "\x22 does not own package \x22" ++ pkgFoo.name ++ "\x22")),
         St.mk [PkgDoc.mk "foo" "foo" ["bob"] 0] [] [userBob]) :=
  C3_ownership_gate 5
    (St.mk [PkgDoc.mk "foo" "foo" ["bob"] 0] [] [userBob])
    pkgFoo userAlice (PkgDoc.mk "foo" "foo" ["bob"] 0) rfl rfl

/-- Claim C4 (code_bug): `handleLoadError` never produces either of the
two `LoadError`s the claim describes.  The driver hands the query
callback a cursor, so `!pkg` is false even for a package with no stored
versions (the does-not-exist branch is unreachable), and the
missing-version message then reads `pkg.version` — `undefined` on a
cursor — and calls `.join` on it, so for every store, name and version
the caller gets the same `TypeError`: no message naming any stored
version (much less the most recent one) is ever built, and the two cases
the claim requires to be distinguishable produce identical errors. -/
theorem C4_load_error_never_built (st : St) (name : String)
    (version : List JSNum) :
    handleLoadError st name version
      = Err.typeErr "Cannot call method \x27join\x27 of undefined"
    ∧ ∀ m : String, handleLoadError st name version ≠ Err.loadErr m :=
  ⟨rfl, fun _ h => Err.noConfusion h⟩

/-- Claim C7 (amended): whenever the looked-up user is absent or the
stored token differs, `loadUserWithToken` returns `null` — the two
mismatch cases are indistinguishable, but no `InputError` (or any other
error object) is produced. -/
theorem C7_token_mismatch_returns_null (st : St) (name token : String)
    (h : ∀ u, st.users.find? (fun v => v.name_ = jsToLower name) = some u
      → u.token ≠ token) :
    loadUserWithToken st name token = none := by
  unfold loadUserWithToken
  cases hfind : st.users.find? (fun v => v.name_ = jsToLower name) with
  | none => rfl
  | some u => simp [h u hfind]

/-- Witness for C7: Alice exists with token `tok-alice`; asking with a
wrong token yields `null`. -/
theorem C7_token_mismatch_returns_null_witness :
    loadUserWithToken (St.mk [] [] [userAlice]) "alice" "wrong" = none :=
  C7_token_mismatch_returns_null (St.mk [] [] [userAlice]) "alice" "wrong"
    (fun u hu => by
      have h3 : (St.mk [] [] [userAlice]).users.find?
          (fun v => v.name_ = jsToLower "alice") = some userAlice := rfl
      rw [h3] at hu
      rw [(Option.some.inj hu).symm]
      decide)

/-- Counterexample to C7 as stated: both an unknown name and a wrong
token yield `null` (the same value, so the cases are indeed
indistinguishable), not an `InputError "invalid"` — the function has no
error outcome at all on mismatch. -/
theorem C7_no_input_error_counterexample :
    loadUserWithToken (St.mk [] [] [userAlice]) "ghost" "tok-alice" = none
    ∧ loadUserWithToken (St.mk [] [] [userAlice]) "alice" "bad" = none
    ∧ loadUserWithToken (St.mk [] [] [userAlice]) "alice" "tok-alice"
        = some userAlice :=
  ⟨rfl, rfl, rfl⟩

/-- Claim C9: on the single-file path the uploader is not forwarded —
`savePackage`'s `el` branch calls `saveElisp(data.toString('utf8'),
callback)` with no user argument, so the dispatched call (and with it
the operation's result and the stored state, which are functions of the
call) is the same whichever user uploads, and carries no user at all. -/
theorem C9_el_upload_ignores_user (data : String) (u1 u2 : UserDoc) :
    savePackage data u1 "el" = savePackage data u2 "el"
    ∧ savePackage data u1 "el" = SPCall.elisp data :=
  ⟨rfl, rfl⟩

end Marmalade
